import Mathlib

/-!
Verification of the EIP-7702 delegate-analysis scripts.

The TypeScript sources are embedded shallowly: JavaScript strings are Lean
strings manipulated through explicit character-list helpers (so that every
operation reduces in the kernel), JavaScript bigints are Lean integers,
unsigned counters are naturals, and external cryptographic primitives
(keccak-256, ECDSA public-key recovery) are abstract function parameters.
-/

namespace Eip7702

/-! ## JavaScript string primitives

JavaScript string operations used by the scripts, modelled on character
lists.  ASCII-only inputs are the only ones the scripts feed them. -/

/-- Characters recognised by the regular-expression character class
[0-9a-f] (lower-case hexadecimal digits). -/
def hexLowerChars : List Char := "0123456789abcdef".data

/-- Characters recognised by the regular-expression character class
[0-9a-fA-F]. -/
def hexAnyChars : List Char := "0123456789abcdefABCDEF".data

/-- Whitespace removed by JavaScript String.trim. -/
def jsWhitespaceChars : List Char :=
  [' ', '\t', '\n', '\r', '\x0b', '\x0c', ' ', '﻿']

def isJsWhitespace (c : Char) : Bool := c ∈ jsWhitespaceChars

/-- JavaScript String.trim: strip whitespace from both ends. -/
def jsTrim (s : String) : String :=
  String.mk ((((s.data.dropWhile isJsWhitespace).reverse.dropWhile
    isJsWhitespace).reverse))

/-- JavaScript String.toLowerCase restricted to ASCII, which is all the
scripts ever lower-case. -/
def jsToLower (s : String) : String :=
  String.mk (s.data.map Char.toLower)

/-- JavaScript String.startsWith. -/
def jsStartsWith (s pre : String) : Bool :=
  pre.data.isPrefixOf s.data

/-! ## EIP-7702 delegation designator parsing (market-share.ts) -/

/-- The string constant EIP7702_PREFIX from market-share.ts (the 3-byte
delegation designator marker 0xef0100 in hexadecimal). -/
def eip7702Marker : String := "0xef0100"

/-- market-share.ts parseDelegationTargetFromCode: lower-case the
bytecode, require the marker, require at least 40 further hex characters
(20 bytes), return the delegate plus an extra-bytes flag. -/
def parseDelegationTargetFromCode (code : String) :
    Option String × Bool :=
  let c := jsToLower code
  if ¬ (jsStartsWith c eip7702Marker) then (none, false)
  else
    let rest := c.data.drop eip7702Marker.data.length
    if rest.length < 40 then (none, false)
    else (some (String.mk ('0' :: 'x' :: rest.take 40)),
      decide (rest.length ≠ 40))

end Eip7702

/-! ## Claim C7 -/

open Eip7702 in
/-- Claim C7, counterexample.  The claim says a delegate is returned if and
only if the bytecode begins with the 3-byte marker 0xef0100; the bytecode
consisting of exactly the marker begins with the marker yet yields no
delegate, refuting the left-to-right direction of the biconditional. -/
theorem C7_counterexample :
    jsStartsWith (jsToLower "0xef0100") eip7702Marker = true ∧
    (parseDelegationTargetFromCode "0xef0100").1 = none := by
  constructor <;> decide

open Eip7702 in
/-- Claim C7, amended: parseDelegationTargetFromCode returns a delegate if
and only if the account bytecode begins with the 3-byte marker 0xef0100
AND at least 20 bytes (40 hexadecimal characters) follow the marker, in
which case the delegate is the 20 bytes immediately following the marker;
when the payload has trailing bytes beyond the expected 23 bytes the
result is flagged hasExtraBytes but the delegate is still returned. -/
theorem C7_delegation_designator (code : String) :
    ((parseDelegationTargetFromCode code).1.isSome = true ↔
      (jsStartsWith (jsToLower code) eip7702Marker = true ∧
        ¬ ((jsToLower code).data.drop 8).length < 40)) ∧
    (jsStartsWith (jsToLower code) eip7702Marker = true →
      ¬ ((jsToLower code).data.drop 8).length < 40 →
      parseDelegationTargetFromCode code =
        (some (String.mk
          ('0' :: 'x' :: ((jsToLower code).data.drop 8).take 40)),
          decide (((jsToLower code).data.drop 8).length ≠ 40))) := by
  unfold parseDelegationTargetFromCode
  have hlen : eip7702Marker.data.length = 8 := by decide
  have hb : ((jsToLower code).data.drop 8).length =
      (jsToLower code).length - 8 := by
    rw [List.length_drop]
    rfl
  rw [hlen, hb]
  by_cases hpre : jsStartsWith (jsToLower code) eip7702Marker = true
  · by_cases hshort : (jsToLower code).length - 8 < 40
    · constructor
      · simp [hpre, hshort]
      · intro _ h40
        exact absurd hshort h40
    · constructor
      · simp [hpre, hshort]
      · intro _ _
        simp [hpre, hshort]
  · constructor
    · simp [hpre]
    · intro h
      exact absurd h hpre

open Eip7702 in
/-- Claim C7, witness: evaluating the amended theorem on a concrete
bytecode with two trailing extra bytes beyond the 23 expected ones. -/
theorem C7_delegation_designator_witness :
    parseDelegationTargetFromCode
        "0xEF0100aabbccddeeff00112233445566778899AABBCCddff" =
      (some "0xaabbccddeeff00112233445566778899aabbccdd", true) := by
  have h := (C7_delegation_designator
    "0xEF0100aabbccddeeff00112233445566778899AABBCCddff").2
    (by decide) (by decide)
  rw [h]
  decide

namespace MarketShare

/-! ## Delegate counts and the final ranking (market-share.ts)

The counts Map of market-share.ts is modelled as an association list kept
in insertion order, with JavaScript Map.get and Map.set semantics. -/

/-- JavaScript Map.get on an association list. -/
def mapGet (m : List (String × Nat)) (k : String) : Option Nat :=
  (m.find? (fun p => p.1 == k)).map (·.2)

/-- JavaScript Map.set: overwrite the existing entry in place, otherwise
append a new entry at the end. -/
def mapSet (m : List (String × Nat)) (k : String) (v : Nat) :
    List (String × Nat) :=
  match m with
  | [] => [(k, v)]
  | p :: rest => if p.1 == k then (k, v) :: rest else p :: mapSet rest k v

/-- The comparator (a, b) => b[1] - a[1] used on Array.from(counts.entries())
orders by count descending and reports ties as equal. -/
def countDescRel (a b : String × Nat) : Prop := b.2 ≤ a.2

instance : DecidableRel countDescRel := fun a b => Nat.decLe b.2 a.2

instance : IsTotal (String × Nat) countDescRel :=
  ⟨fun a b => le_total b.2 a.2⟩

instance : IsTrans (String × Nat) countDescRel :=
  ⟨fun _ _ _ hab hbc => le_trans hbc hab⟩

/-- JavaScript Array.prototype.sort is a stable sort; a stable sort by the
comparator above is insertion sort with the non-strict count-descending
relation. -/
def sortByCountDesc (l : List (String × Nat)) : List (String × Nat) :=
  List.insertionSort countDescRel l

/-- One row of the final report of market-share.ts (lines 376-382). -/
structure RankedDelegate where
  rank : Nat
  delegate : String
  count : Nat
  share : ℚ
  isCoinbase : Bool
deriving DecidableEq

/-- The body of sorted.map of market-share.ts, with the JavaScript map
index made explicit.  The ternary
`currentlyDelegated ? count / currentlyDelegated : 0` tests the total
for zero.  The share division is idealized here as the exact rational
quotient; the program divides IEEE-754 doubles, which rankRowsDouble
below models faithfully, and the difference matters whenever an exact
identity across several shares is asserted (claim C10). -/
def rankRows (cd : Nat) (cb : Option String) :
    Nat → List (String × Nat) → List RankedDelegate
  | _, [] => []
  | i, p :: rest =>
    { rank := i + 1, delegate := p.1, count := p.2,
      share := if cd = 0 then 0 else (p.2 : ℚ) / cd,
      isCoinbase := match cb with
        | some c => p.1 == c
        | none => false } :: rankRows cd cb (i + 1) rest

/-- market-share.ts lines 375-382: sort the count entries with the
comparator (a, b) => b[1] - a[1] and attach rank, share and the coinbase
flag. -/
def rankDelegates (counts : List (String × Nat)) (cd : Nat)
    (cb : Option String) : List RankedDelegate :=
  rankRows cd cb 0 (sortByCountDesc counts)

/-- Filtering on a fixed count commutes with orderedInsert for the
count-descending relation: every element the insertion walks past has a
strictly larger count. -/
theorem filter_orderedInsert_count (c : Nat) (x : String × Nat)
    (l : List (String × Nat)) :
    (List.orderedInsert countDescRel x l).filter (fun p => p.2 == c) =
      if x.2 = c then x :: l.filter (fun p => p.2 == c)
      else l.filter (fun p => p.2 == c) := by
  have htake : (List.takeWhile (fun b => decide ¬countDescRel x b) l).filter
      (fun p => p.2 == c) = [] ∨ ¬ x.2 = c := by
    by_cases hx : x.2 = c
    · left
      rw [List.filter_eq_nil_iff]
      intro a ha
      have := List.mem_takeWhile_imp ha
      simp only [decide_eq_true_eq, countDescRel] at this
      simp only [beq_iff_eq]
      omega
    · right
      exact hx
  have hsplit : l.filter (fun p => p.2 == c) =
      (List.takeWhile (fun b => decide ¬countDescRel x b) l).filter
        (fun p => p.2 == c) ++
      (List.dropWhile (fun b => decide ¬countDescRel x b) l).filter
        (fun p => p.2 == c) := by
    rw [← List.filter_append, List.takeWhile_append_dropWhile]
  rw [List.orderedInsert_eq_take_drop, List.filter_append, List.filter_cons]
  by_cases hx : x.2 = c
  · rcases htake with htake | hbad
    · simp only [hx, beq_self_eq_true, if_true, htake, List.nil_append,
        hsplit, htake]
    · exact absurd hx hbad
  · have hxc : (x.2 == c) = false := by simpa using hx
    simp only [hxc, Bool.false_eq_true, if_false, if_neg hx, hsplit]

/-- Stability of the count-descending sort: entries carrying one and the
same count keep their relative order from the counts map. -/
theorem filter_sortByCountDesc (c : Nat) (l : List (String × Nat)) :
    (sortByCountDesc l).filter (fun p => p.2 == c) =
      l.filter (fun p => p.2 == c) := by
  induction l with
  | nil => rfl
  | cons x xs ih =>
    show (List.orderedInsert countDescRel x
        (List.insertionSort countDescRel xs)).filter (fun p => p.2 == c) = _
    rw [filter_orderedInsert_count, List.filter_cons]
    by_cases hx : x.2 = c
    · simp only [hx, if_true, beq_self_eq_true]
      exact congrArg (x :: ·) ih
    · have hxc : (x.2 == c) = false := by simpa using hx
      simp only [hx, if_false, hxc, Bool.false_eq_true]
      exact ih

/-- The pair content of the ranked rows is exactly the sorted list the
rows were built from. -/
theorem rankRows_map_pair (cd : Nat) (cb : Option String) (i : Nat)
    (l : List (String × Nat)) :
    (rankRows cd cb i l).map (fun e => (e.delegate, e.count)) = l := by
  induction l generalizing i with
  | nil => rfl
  | cons p rest ih =>
    simp only [rankRows, List.map_cons, ih]

/-- Filtering ranked rows on a fixed count mirrors filtering the pair
list the rows were built from. -/
theorem rankRows_filter_count (cd : Nat) (cb : Option String) (c : Nat)
    (i : Nat) (l : List (String × Nat)) :
    ((rankRows cd cb i l).filter (fun e => e.count == c)).map
        (fun e => (e.delegate, e.count)) =
      l.filter (fun p => p.2 == c) := by
  induction l generalizing i with
  | nil => rfl
  | cons p rest ih =>
    obtain ⟨p1, p2⟩ := p
    simp only [rankRows, List.filter_cons]
    by_cases hp : p2 = c
    · subst hp
      simp only [beq_self_eq_true, if_true, List.map_cons, ih]
    · have hpc : (p2 == c) = false := by simpa using hp
      simp only [hpc, Bool.false_eq_true, if_false, ih]

/-- Every share a ranked row carries is its count over the total, zero
when the total is zero. -/
theorem rankRows_share (cd : Nat) (cb : Option String) (i : Nat)
    (l : List (String × Nat)) :
    ∀ e ∈ rankRows cd cb i l,
      e.share = if cd = 0 then 0 else (e.count : ℚ) / cd := by
  induction l generalizing i with
  | nil => intro e he; cases he
  | cons p rest ih =>
    intro e he
    simp only [rankRows] at he
    rcases List.mem_cons.mp he with rfl | h2
    · rfl
    · exact ih (i + 1) e h2

end MarketShare

/-! ## Claim C8 -/

open MarketShare in
/-- Claim C8, counterexample.  The claim says ties between equal counts
are broken by delegate address value; the code sorts only by count and,
being stable, leaves ties in counts-map insertion order.  With the counts
map holding the larger address first, the larger address stays first
(refuting an ascending address tie-break); with the smaller address first,
the smaller stays first (refuting a descending address tie-break). -/
theorem C8_counterexample :
    (rankDelegates [("0xbb", 1), ("0xaa", 1)] 2 none).map (·.delegate) =
        ["0xbb", "0xaa"] ∧
    (rankDelegates [("0xaa", 1), ("0xbb", 1)] 2 none).map (·.delegate) =
        ["0xaa", "0xbb"] ∧
    "0xaa".data < "0xbb".data := by
  refine ⟨by decide, by decide, by decide⟩

open MarketShare in
/-- Claim C8, amended: the delegate list is sorted by count descending,
with ties between equal counts left in the counts-map insertion order
(stable sort) rather than being reordered by address value, and each
entry's share equals its count divided by the currentlyDelegated total,
with share equal to 0 when that total is 0. -/
theorem C8_ranking (counts : List (String × Nat)) (cd : Nat)
    (cb : Option String) :
    List.Sorted (fun a b => b.count ≤ a.count)
        (rankDelegates counts cd cb) ∧
    (∀ c, ((rankDelegates counts cd cb).filter
        (fun e => e.count == c)).map (fun e => (e.delegate, e.count)) =
      counts.filter (fun p => p.2 == c)) ∧
    (∀ e ∈ rankDelegates counts cd cb,
      e.share = if cd = 0 then 0 else (e.count : ℚ) / cd) := by
  refine ⟨?_, ?_, rankRows_share cd cb 0 (sortByCountDesc counts)⟩
  · have hsorted : List.Sorted countDescRel (sortByCountDesc counts) :=
      List.sorted_insertionSort countDescRel counts
    have hmap := rankRows_map_pair cd cb 0 (sortByCountDesc counts)
    have hpair : List.Pairwise countDescRel
        ((rankRows cd cb 0 (sortByCountDesc counts)).map
          (fun e => (e.delegate, e.count))) := by
      rw [hmap]
      exact hsorted
    rw [List.pairwise_map] at hpair
    exact hpair.imp (fun h => h)
  · intro c
    rw [rankDelegates, rankRows_filter_count, filter_sortByCountDesc]

open MarketShare in
/-- Claim C8, witness: the amended theorem evaluated on a concrete counts
map with a genuine tie, checking order, stability and shares. -/
theorem C8_ranking_witness :
    ((rankDelegates [("0xcc", 1), ("0xaa", 3), ("0xbb", 1)] 5 none).map
        (fun e => (e.delegate, e.count)) =
      [("0xaa", 3), ("0xcc", 1), ("0xbb", 1)]) ∧
    (∀ e ∈ rankDelegates [("0xcc", 1), ("0xaa", 3), ("0xbb", 1)] 5 none,
      e.share = if (5 : Nat) = 0 then 0 else (e.count : ℚ) / 5) :=
  ⟨by decide, (C8_ranking [("0xcc", 1), ("0xaa", 3), ("0xbb", 1)] 5 none).2.2⟩

namespace MarketShare

/-! ## Chunk accumulation and checkpointing (market-share.ts main loop)

Only the parts of the main loop that touch counts and currentlyDelegated
are relevant to the accounting invariant: each chunk yields one optional
delegate per candidate address, and each present delegate bumps both the
total and its own count (lines 323-327); the checkpoint stores both and a
resume reloads the stored counts, dropping non-positive entries
(lines 262-296). -/

structure ShareState where
  counts : List (String × Nat)
  currentlyDelegated : Nat
deriving DecidableEq

/-- Lines 323-327: for each delegate result of a chunk, skip undefined,
otherwise increment currentlyDelegated and the delegate's count. -/
def applyDelegateResult (st : ShareState) (d : Option String) : ShareState :=
  match d with
  | none => st
  | some a =>
    { counts := mapSet st.counts a ((mapGet st.counts a).getD 0 + 1),
      currentlyDelegated := st.currentlyDelegated + 1 }

/-- One chunk of the main loop: fold the per-address delegate results. -/
def processChunk (st : ShareState) (ds : List (Option String)) : ShareState :=
  ds.foldl applyDelegateResult st

/-- Lines 275-279: a resume replays the checkpointed count entries into a
fresh Map, keeping only entries with a positive count. -/
def restoreCounts (entries : List (String × Nat)) : List (String × Nat) :=
  entries.foldl (fun acc p => if 0 < p.2 then mapSet acc p.1 p.2 else acc) []

/-- The states a market-share run can be in at a chunk boundary: a fresh
run, a further processed chunk, or a restart from a checkpoint this
program itself wrote (the checkpoint stores counts and currentlyDelegated
verbatim, lines 330-349). -/
inductive ReachableShareState : ShareState → Prop
  | fresh : ReachableShareState ⟨[], 0⟩
  | chunk (st : ShareState) (ds : List (Option String)) :
      ReachableShareState st → ReachableShareState (processChunk st ds)
  | resume (st : ShareState) : ReachableShareState st →
      ReachableShareState ⟨restoreCounts st.counts, st.currentlyDelegated⟩

/-- Bookkeeping facts preserved at every chunk boundary. -/
def GoodShareState (st : ShareState) : Prop :=
  st.currentlyDelegated = (st.counts.map (·.2)).sum ∧
  (∀ p ∈ st.counts, 0 < p.2) ∧
  (st.counts.map (·.1)).Nodup

theorem sum_mapSet_incr (m : List (String × Nat)) (k : String) :
    ((mapSet m k ((mapGet m k).getD 0 + 1)).map (·.2)).sum =
      (m.map (·.2)).sum + 1 := by
  induction m with
  | nil => simp [mapSet, mapGet]
  | cons p rest ih =>
    by_cases h : p.1 == k
    · simp only [mapSet, mapGet, List.find?_cons, h, if_true]
      simp [List.map_cons]
      omega
    · have hfind : mapGet (p :: rest) k = mapGet rest k := by
        simp only [mapGet, List.find?_cons, h]
      simp only [mapSet, h, Bool.false_eq_true, if_false, hfind,
        List.map_cons, List.sum_cons]
      omega

theorem pos_mapSet (m : List (String × Nat)) (k : String) (v : Nat)
    (hv : 0 < v) (hm : ∀ p ∈ m, 0 < p.2) :
    ∀ p ∈ mapSet m k v, 0 < p.2 := by
  induction m with
  | nil =>
    intro p hp
    rcases List.mem_singleton.mp hp with rfl
    exact hv
  | cons q rest ih =>
    intro p hp
    by_cases h : q.1 == k
    · simp only [mapSet, h, if_true] at hp
      rcases List.mem_cons.mp hp with rfl | hp2
      · exact hv
      · exact hm p (List.mem_cons_of_mem q hp2)
    · simp only [mapSet, h, Bool.false_eq_true, if_false] at hp
      rcases List.mem_cons.mp hp with rfl | hp2
      · exact hm p (List.mem_cons_self ..)
      · exact ih (fun r hr => hm r (List.mem_cons_of_mem q hr)) p hp2

theorem keys_mapSet (m : List (String × Nat)) (k : String) (v : Nat) :
    (mapSet m k v).map (·.1) =
      if k ∈ m.map (·.1) then m.map (·.1) else m.map (·.1) ++ [k] := by
  induction m with
  | nil => simp [mapSet]
  | cons p rest ih =>
    by_cases h : p.1 == k
    · have hk : p.1 = k := by simpa using h
      simp [mapSet, h, hk]
    · have hk : ¬ p.1 = k := by simpa using h
      have hk' : ¬ k = p.1 := fun hc => hk hc.symm
      simp only [mapSet, h, Bool.false_eq_true, if_false, List.map_cons, ih]
      by_cases hmem : k ∈ rest.map (·.1) <;>
        simp [hmem, hk', List.mem_cons]

theorem nodup_keys_mapSet (m : List (String × Nat)) (k : String) (v : Nat)
    (hnd : (m.map (·.1)).Nodup) : ((mapSet m k v).map (·.1)).Nodup := by
  rw [keys_mapSet]
  by_cases hmem : k ∈ m.map (·.1)
  · simpa [hmem] using hnd
  · simp only [hmem, if_false]
    simp [List.nodup_append, hnd, hmem]

theorem good_applyDelegateResult (st : ShareState) (d : Option String)
    (h : GoodShareState st) : GoodShareState (applyDelegateResult st d) := by
  cases d with
  | none => exact h
  | some a =>
    obtain ⟨hsum, hpos, hnd⟩ := h
    refine ⟨?_, ?_, nodup_keys_mapSet _ _ _ hnd⟩
    · simp only [applyDelegateResult]
      rw [sum_mapSet_incr, ← hsum]
    · exact pos_mapSet _ _ _ (Nat.succ_pos _) hpos

theorem good_processChunk (st : ShareState) (ds : List (Option String))
    (h : GoodShareState st) : GoodShareState (processChunk st ds) := by
  induction ds generalizing st with
  | nil => exact h
  | cons d rest ih => exact ih _ (good_applyDelegateResult st d h)

theorem mapSet_append_of_not_mem (acc : List (String × Nat)) (k : String)
    (v : Nat) (h : ¬ k ∈ acc.map (·.1)) : mapSet acc k v = acc ++ [(k, v)] := by
  induction acc with
  | nil => rfl
  | cons p rest ih =>
    have hk : ¬ (p.1 == k) = true := by
      simp only [List.map_cons, List.mem_cons] at h
      simp only [beq_iff_eq]
      exact fun hc => h (Or.inl hc.symm)
    simp only [mapSet, hk, if_false, List.cons_append]
    rw [ih (fun hc => h (by simp [List.map_cons, List.mem_cons, hc]))]
    simp

theorem restoreCounts_eq_self (m : List (String × Nat))
    (hpos : ∀ p ∈ m, 0 < p.2) (hnd : (m.map (·.1)).Nodup) :
    restoreCounts m = m := by
  suffices haux : ∀ acc : List (String × Nat),
      (∀ p ∈ m, ¬ p.1 ∈ acc.map (·.1)) →
      m.foldl (fun acc p => if 0 < p.2 then mapSet acc p.1 p.2 else acc) acc =
        acc ++ m by
    simpa using haux [] (by simp)
  induction m with
  | nil => intro acc _; simp
  | cons p rest ih =>
    intro acc hdisj
    have hp : 0 < p.2 := hpos p (List.mem_cons_self ..)
    have hpk : ¬ p.1 ∈ acc.map (·.1) := hdisj p (List.mem_cons_self ..)
    have hstep : mapSet acc p.1 p.2 = acc ++ [p] := by
      rw [mapSet_append_of_not_mem acc p.1 p.2 hpk]
    simp only [List.foldl_cons, hp, if_true, hstep]
    have hndrest : (rest.map (·.1)).Nodup := by
      simp only [List.map_cons, List.nodup_cons] at hnd
      exact hnd.2
    have hne : ∀ q ∈ rest, ¬ q.1 = p.1 := by
      intro q hq hc
      simp only [List.map_cons, List.nodup_cons] at hnd
      exact hnd.1 (hc ▸ List.mem_map_of_mem _ hq)
    have := ih (fun q hq => hpos q (List.mem_cons_of_mem p hq)) hndrest
      (acc ++ [p])
      (by
        intro q hq
        simp only [List.map_append, List.mem_append, List.map_cons]
        rintro (hin | hin)
        · exact hdisj q (List.mem_cons_of_mem p hq) hin
        · simp only [List.map_nil, List.mem_singleton] at hin
          exact hne q hq hin)
    rw [this, List.append_assoc]
    rfl

theorem good_of_reachable (st : ShareState) (h : ReachableShareState st) :
    GoodShareState st := by
  induction h with
  | fresh => exact ⟨rfl, by simp, by simp⟩
  | chunk st ds _ ih => exact good_processChunk st ds ih
  | resume st _ ih =>
    obtain ⟨hsum, hpos, hnd⟩ := ih
    rw [show (⟨restoreCounts st.counts, st.currentlyDelegated⟩ : ShareState) =
      ⟨st.counts, st.currentlyDelegated⟩ from by
        rw [restoreCounts_eq_self st.counts hpos hnd]]
    exact ⟨hsum, hpos, hnd⟩

theorem rankRows_share_sum (cd : Nat) (hcd : cd ≠ 0) (cb : Option String)
    (i : Nat) (l : List (String × Nat)) :
    ((rankRows cd cb i l).map (·.share)).sum =
      (Nat.cast ((l.map (fun p => p.2)).sum) : ℚ) / Nat.cast cd := by
  induction l generalizing i with
  | nil => simp [rankRows]
  | cons p rest ih =>
    simp only [rankRows, List.map_cons, List.sum_cons, hcd, if_false,
      ih (i + 1)]
    push_cast
    rw [div_add_div_same]

end MarketShare

namespace MarketShare

/-! ## IEEE-754 binary64 share division (market-share.ts line 380)

The program computes count / currentlyDelegated on JavaScript numbers,
i.e. IEEE-754 binary64 doubles.  Both operands are integers far below
2^53, hence exactly representable, and the division returns the
correctly rounded double of the exact ratio.  The model scales the
ratio into the significand range [2^52, 2^53), rounds to nearest with
ties to even, and interprets the resulting double as the exact rational
it denotes. -/

/-- Scale the positive fraction n/d by powers of two until it lies in
[2^52, 2^53), returning the scaled fraction and the binary exponent.
The first argument is recursion fuel; divDouble passes enough for any
input. -/
def normScaleAux : Nat → Nat → Nat → ℤ → Nat × Nat × ℤ
  | 0, n, d, e => (n, d, e)
  | fuel + 1, n, d, e =>
    if n < 2 ^ 52 * d then normScaleAux fuel (2 * n) d (e - 1)
    else if n < 2 ^ 53 * d then (n, d, e)
    else normScaleAux fuel n (2 * d) (e + 1)

/-- The IEEE-754 binary64 quotient of two natural numbers, as the exact
rational value of the resulting double: scale into [2^52, 2^53), round
the 53-bit significand to nearest with ties to even, reapply the binary
exponent.  Overflow and subnormals never arise for delegate counts; a
zero divisor is unreachable behind the report's ternary and modelled
as 0. -/
def divDouble (n d : Nat) : ℚ :=
  if n = 0 ∨ d = 0 then 0
  else
    let (m, dd, e) := normScaleAux (n + d + 110) n d 0
    let q := m / dd
    let r := m % dd
    let sig : Nat :=
      if 2 * r < dd then q
      else if dd < 2 * r then q + 1
      else if q % 2 = 0 then q else q + 1
    (sig : ℚ) * 2 ^ e

/-- rankRows with the share division performed in IEEE-754 binary64
arithmetic, as market-share.ts line 380 actually computes it. -/
def rankRowsDouble (cd : Nat) (cb : Option String) :
    Nat → List (String × Nat) → List RankedDelegate
  | _, [] => []
  | i, p :: rest =>
    { rank := i + 1, delegate := p.1, count := p.2,
      share := if cd = 0 then 0 else divDouble p.2 cd,
      isCoinbase := match cb with
        | some c => p.1 == c
        | none => false } :: rankRowsDouble cd cb (i + 1) rest

/-- The final report with binary64 share quotients. -/
def rankDelegatesDouble (counts : List (String × Nat)) (cd : Nat)
    (cb : Option String) : List RankedDelegate :=
  rankRowsDouble cd cb 0 (sortByCountDesc counts)

/-- The reported ranking is the idealized exact ranking with every
share replaced by its binary64 quotient. -/
theorem rankRowsDouble_eq_map (cd : Nat) (cb : Option String) (i : Nat)
    (l : List (String × Nat)) :
    rankRowsDouble cd cb i l = (rankRows cd cb i l).map
      (fun d => { d with share := divDouble d.count cd }) := by
  induction l generalizing i with
  | nil => rfl
  | cons p rest ih =>
    simp only [rankRowsDouble, rankRows, List.map_cons, ih (i + 1)]
    by_cases h : cd = 0
    · subst h
      simp [divDouble]
    · simp [h]

/-- The two-chunk run with a checkpoint resume in between used by the
C10 witness. -/
def c10State : ShareState :=
  processChunk
    ⟨restoreCounts (processChunk ⟨[], 0⟩
        [some "0xaa", none, some "0xbb", some "0xaa"]).counts,
      (processChunk ⟨[], 0⟩
        [some "0xaa", none, some "0xbb", some "0xaa"]).currentlyDelegated⟩
    [some "0xbb", none]

end MarketShare

/-! ## Claim C10 -/

open MarketShare in
/-- Claim C10, counterexample.  The claim concludes that the reported
shares sum to 1 whenever currentlyDelegated is positive.  The invariant
half holds - three count-1 delegates give currentlyDelegated 3, the sum
of the counts - but market-share.ts line 380 divides IEEE-754 doubles:
each reported share is the double nearest 1/3, namely
6004799503160661/2^54, so the three reported shares sum to
18014398509481983/18014398509481984, not 1. -/
theorem C10_counterexample :
    ReachableShareState ⟨[("0xa1", 1), ("0xa2", 1), ("0xa3", 1)], 3⟩ ∧
    (⟨[("0xa1", 1), ("0xa2", 1), ("0xa3", 1)], 3⟩ :
        ShareState).currentlyDelegated =
      (([("0xa1", 1), ("0xa2", 1), ("0xa3", 1)] :
        List (String × Nat)).map (·.2)).sum ∧
    divDouble 1 3 = (6004799503160661 : ℚ) / 18014398509481984 ∧
    ((rankDelegatesDouble [("0xa1", 1), ("0xa2", 1), ("0xa3", 1)] 3
        none).map (·.share)).sum ≠ 1 := by
  have hns : normScaleAux (1 + 3 + 110) 1 3 0 =
      (18014398509481984, 3, -54) := by decide
  have hdd : divDouble 1 3 =
      (6004799503160661 : ℚ) / 18014398509481984 := by
    rw [divDouble, if_neg (by decide), hns]
    dsimp only
    norm_num
  refine ⟨?_, by decide, hdd, ?_⟩
  · have he : processChunk ⟨[], 0⟩
        [some "0xa1", some "0xa2", some "0xa3"] =
        (⟨[("0xa1", 1), ("0xa2", 1), ("0xa3", 1)], 3⟩ : ShareState) := by
      decide
    have h := ReachableShareState.chunk ⟨[], 0⟩
      [some "0xa1", some "0xa2", some "0xa3"] ReachableShareState.fresh
    rw [he] at h
    exact h
  · have hsort : sortByCountDesc [("0xa1", 1), ("0xa2", 1), ("0xa3", 1)] =
        [("0xa1", 1), ("0xa2", 1), ("0xa3", 1)] := by decide
    rw [rankDelegatesDouble, hsort]
    norm_num [rankRowsDouble, hdd]

open MarketShare in
/-- Claim C10, amended: in every run that starts from index 0 with empty
counts or resumes from a checkpoint this program itself wrote, after
each processed chunk the currentlyDelegated total equals the sum of all
per-delegate counts, and consequently the exact quotients
count / currentlyDelegated attached by the ranking sum to 1 whenever the
total is positive; the program however reports each share as the
IEEE-754 binary64 quotient - the exact share rounded to the nearest
double - and the reported doubles themselves need not sum to 1. -/
theorem C10_delegated_total_invariant (st : ShareState)
    (h : ReachableShareState st) :
    st.currentlyDelegated = (st.counts.map (·.2)).sum ∧
    (0 < st.currentlyDelegated → ∀ cb : Option String,
      ((rankDelegates st.counts st.currentlyDelegated cb).map
        (·.share)).sum = 1) ∧
    (∀ cb : Option String,
      rankDelegatesDouble st.counts st.currentlyDelegated cb =
        (rankDelegates st.counts st.currentlyDelegated cb).map
          (fun d =>
            { d with share := divDouble d.count st.currentlyDelegated })) := by
  obtain ⟨hsum, _, _⟩ := good_of_reachable st h
  refine ⟨hsum, fun hpos cb => ?_, fun cb => ?_⟩
  · have hcd : st.currentlyDelegated ≠ 0 := Nat.pos_iff_ne_zero.mp hpos
    rw [rankDelegates, rankRows_share_sum _ hcd]
    have hperm : (sortByCountDesc st.counts).Perm st.counts :=
      List.perm_insertionSort countDescRel st.counts
    have hsum2 : ((sortByCountDesc st.counts).map (fun p => p.2)).sum =
        (st.counts.map (fun p => p.2)).sum :=
      (hperm.map (fun p => p.2)).sum_eq
    rw [hsum2]
    rw [show (st.counts.map (fun p => p.2)).sum = st.currentlyDelegated from
      hsum.symm]
    exact div_self (by exact_mod_cast hcd)
  · rw [rankDelegatesDouble, rankDelegates]
    exact rankRowsDouble_eq_map _ _ _ _

open MarketShare in
/-- Claim C10, witness: a concrete run of two chunks with a checkpoint
resume in between; the exact shares of the resulting state sum to 1,
and the reported ranking is the exact ranking with every share replaced
by its binary64 quotient. -/
theorem C10_delegated_total_invariant_witness :
    ((rankDelegates c10State.counts c10State.currentlyDelegated none).map
      (·.share)).sum = 1 ∧
    rankDelegatesDouble c10State.counts c10State.currentlyDelegated none =
      (rankDelegates c10State.counts c10State.currentlyDelegated
        none).map (fun d =>
          { d with share := divDouble d.count c10State.currentlyDelegated }) :=
  ⟨(C10_delegated_total_invariant c10State
      (ReachableShareState.chunk _ _ (ReachableShareState.resume _
        (ReachableShareState.chunk _ _ ReachableShareState.fresh)))).2.1
      (by decide) none,
   (C10_delegated_total_invariant c10State
      (ReachableShareState.chunk _ _ (ReachableShareState.resume _
        (ReachableShareState.chunk _ _ ReachableShareState.fresh)))).2.2
      none⟩

namespace MarketShare

open Eip7702

/-! ## The retrying RPC client (market-share.ts rpcCall, lines 60-138)

One call attempt either fails at the HTTP layer with a status, fails with
a JSON-RPC error message, or succeeds.  The response of every attempt is
injected as a function of the attempt number, and the random jitter
sample of each attempt is likewise abstracted into a function; rpcCall
returns the outcome together with the list of waits it performed. -/

inductive RpcResponse (V : Type) where
  | http (status : Nat)
  | rpcErr (msg : String)
  | ok (v : V)

inductive RpcFailure where
  | httpError (status : Nat)
  | rpcError (msg : String)
deriving DecidableEq

structure RetryConfig where
  maxRetries : Nat
  baseDelayMs : Nat
  maxDelayMs : Nat

/-- Line 99: retryable = status === 429 || 408 || 500 || 502 || 503 || 504. -/
def retryableHttpStatus (status : Nat) : Bool :=
  status == 429 || status == 408 || status == 500 || status == 502 ||
    status == 503 || status == 504

/-- JavaScript String.includes on character lists. -/
def charsContain (hay needle : List Char) : Bool :=
  needle.isPrefixOf hay ||
    match hay with
    | [] => false
    | _ :: t => charsContain t needle

/-- Lines 119-123: a JSON-RPC error message is retryable when its
lower-casing contains rate, limit or timeout. -/
def retryableRpcMessage (msg : String) : Bool :=
  charsContain (jsToLower msg).data "rate".data ||
    charsContain (jsToLower msg).data "limit".data ||
    charsContain (jsToLower msg).data "timeout".data

/-- Line 110 and line 127: backoff = min(maxDelayMs, baseDelayMs * 2^attempt). -/
def backoffDelay (cfg : RetryConfig) (attempt : Nat) : Nat :=
  min cfg.maxDelayMs (cfg.baseDelayMs * 2 ^ attempt)

/-- The retry loop of rpcCall.  The remaining-attempt counter rem equals
maxRetries - attempt, so rem = 0 exactly when attempt === maxRetries.
jitter attempt abstracts the sample Math.floor(Math.random() *
Math.min(250, backoff)) drawn at that attempt. -/
def rpcCallGo {V : Type} (cfg : RetryConfig) (responses : Nat → RpcResponse V)
    (jitter : Nat → Nat) : Nat → Nat → Except RpcFailure V × List Nat
  | attempt, rem =>
    match responses attempt with
    | .ok v => (.ok v, [])
    | .http status =>
      if retryableHttpStatus status then
        match rem with
        | 0 => (.error (.httpError status), [])
        | rem' + 1 =>
          let r := rpcCallGo cfg responses jitter (attempt + 1) rem'
          (r.1, (backoffDelay cfg attempt + jitter attempt) :: r.2)
      else (.error (.httpError status), [])
    | .rpcErr msg =>
      if retryableRpcMessage msg then
        match rem with
        | 0 => (.error (.rpcError msg), [])
        | rem' + 1 =>
          let r := rpcCallGo cfg responses jitter (attempt + 1) rem'
          (r.1, (backoffDelay cfg attempt + jitter attempt) :: r.2)
      else (.error (.rpcError msg), [])

/-- market-share.ts rpcCall: run attempts 0 through maxRetries. -/
def rpcCall {V : Type} (cfg : RetryConfig) (responses : Nat → RpcResponse V)
    (jitter : Nat → Nat) : Except RpcFailure V × List Nat :=
  rpcCallGo cfg responses jitter 0 cfg.maxRetries

/-- A response on which the loop keeps going. -/
def RetryableResponse {V : Type} : RpcResponse V → Prop
  | .http status => retryableHttpStatus status = true
  | .rpcErr msg => retryableRpcMessage msg = true
  | .ok _ => False

theorem rpcCallGo_const_http {V : Type} (cfg : RetryConfig)
    (responses : Nat → RpcResponse V) (jitter : Nat → Nat) (status : Nat)
    (hret : retryableHttpStatus status = true)
    (hresp : ∀ a, responses a = .http status) :
    ∀ rem attempt, rpcCallGo cfg responses jitter attempt rem =
      (.error (.httpError status),
        (List.range rem).map
          (fun i => backoffDelay cfg (attempt + i) + jitter (attempt + i))) := by
  intro rem
  induction rem with
  | zero =>
    intro attempt
    rw [rpcCallGo, hresp attempt]
    simp [hret]
  | succ rem' ih =>
    intro attempt
    rw [rpcCallGo, hresp attempt]
    simp only [hret, if_true, ih (attempt + 1)]
    rw [List.range_succ_eq_map, List.map_cons, List.map_map]
    refine congrArg₂ Prod.mk rfl (congrArg₂ List.cons ?_ ?_)
    · rw [Nat.add_zero]
    · apply List.map_congr_left
      intro i _
      simp only [Function.comp_apply, Nat.succ_eq_add_one]
      rw [show attempt + (i + 1) = attempt + 1 + i from by omega]

theorem rpcCallGo_success_after {V : Type} (cfg : RetryConfig)
    (responses : Nat → RpcResponse V) (jitter : Nat → Nat) (v : V) :
    ∀ (k rem attempt : Nat), k ≤ rem →
      (∀ a, a < k → RetryableResponse (responses (attempt + a))) →
      responses (attempt + k) = .ok v →
      rpcCallGo cfg responses jitter attempt rem =
        (.ok v, (List.range k).map
          (fun i => backoffDelay cfg (attempt + i) + jitter (attempt + i))) := by
  intro k
  induction k with
  | zero =>
    intro rem attempt _ _ hok
    rw [rpcCallGo]
    rw [Nat.add_zero] at hok
    rw [hok]
    rfl
  | succ k' ih =>
    intro rem attempt hle hretry hok
    obtain ⟨rem', rfl⟩ : ∃ rem', rem = rem' + 1 :=
      ⟨rem - 1, by omega⟩
    have h0 := hretry 0 (Nat.succ_pos _)
    rw [Nat.add_zero] at h0
    have hrec := ih rem' (attempt + 1) (by omega)
      (fun a ha => by
        have := hretry (a + 1) (by omega)
        rwa [show attempt + (a + 1) = attempt + 1 + a from by omega] at this)
      (by rwa [show attempt + 1 + k' = attempt + (k' + 1) from by omega])
    rw [rpcCallGo]
    cases hcase : responses attempt with
    | ok w => rw [hcase] at h0; cases h0
    | http status =>
      rw [hcase] at h0
      simp only [RetryableResponse] at h0
      simp only [h0, if_true, hrec]
      rw [List.range_succ_eq_map, List.map_cons, List.map_map]
      refine congrArg₂ Prod.mk rfl (congrArg₂ List.cons ?_ ?_)
      · rw [Nat.add_zero]
      · apply List.map_congr_left
        intro i _
        simp only [Function.comp_apply, Nat.succ_eq_add_one]
        rw [show attempt + (i + 1) = attempt + 1 + i from by omega]
    | rpcErr msg =>
      rw [hcase] at h0
      simp only [RetryableResponse] at h0
      simp only [h0, if_true, hrec]
      rw [List.range_succ_eq_map, List.map_cons, List.map_map]
      refine congrArg₂ Prod.mk rfl (congrArg₂ List.cons ?_ ?_)
      · rw [Nat.add_zero]
      · apply List.map_congr_left
        intro i _
        simp only [Function.comp_apply, Nat.succ_eq_add_one]
        rw [show attempt + (i + 1) = attempt + 1 + i from by omega]

end MarketShare

/-! ## Claim C5 -/

open MarketShare in
/-- Claim C5, counterexample.  The claim says every 5xx status is
retried; status 501 is a 5xx status, yet on a stream of 501 responses the
call fails immediately with no retry wait, because line 99 only treats
429, 408, 500, 502, 503 and 504 as retryable. -/
theorem C5_counterexample :
    ((500 : Nat) ≤ 501 ∧ (501 : Nat) < 600) ∧
    retryableHttpStatus 501 = false ∧
    rpcCall ⟨8, 250, 10000⟩ (fun _ => RpcResponse.http (V := Unit) 501)
        (fun _ => 0) =
      (Except.error (RpcFailure.httpError 501), []) :=
  ⟨⟨by decide, by decide⟩, by decide, rfl⟩

open MarketShare in
/-- Claim C5, amended: rpcCall retries a request exactly when the
response is HTTP 429, 408, 500, 502, 503 or 504 (not every 5xx status),
or a JSON-RPC error whose lower-cased message contains rate, limit or
timeout; between attempts it waits min(maxDelay, baseDelay * 2^attempt)
plus the jitter sample of that attempt (the code draws it uniformly from
[0, min(250, delay))); any other HTTP status or JSON-RPC error fails
immediately; on a sequence of 429 responses it waits exactly maxRetries
times and then fails with an error carrying the last observed HTTP
failure; and a success after any run of retryable failures terminates the
retries immediately. -/
theorem C5_retry_policy {V : Type} (cfg : RetryConfig)
    (responses : Nat → RpcResponse V) (jitter : Nat → Nat) :
    (∀ status, responses 0 = .http status →
      retryableHttpStatus status = false →
      rpcCall cfg responses jitter =
        (.error (.httpError status), [])) ∧
    (∀ msg, responses 0 = .rpcErr msg →
      retryableRpcMessage msg = false →
      rpcCall cfg responses jitter = (.error (.rpcError msg), [])) ∧
    ((∀ a, responses a = .http 429) →
      rpcCall cfg responses jitter =
        (.error (.httpError 429),
          (List.range cfg.maxRetries).map
            (fun a => backoffDelay cfg a + jitter a))) ∧
    (∀ k v, k ≤ cfg.maxRetries →
      (∀ a, a < k → RetryableResponse (responses a)) →
      responses k = .ok v →
      rpcCall cfg responses jitter =
        (.ok v, (List.range k).map
          (fun a => backoffDelay cfg a + jitter a))) := by
  refine ⟨?_, ?_, ?_, ?_⟩
  · intro status h0 hnr
    rw [rpcCall, rpcCallGo, h0]
    simp [hnr]
  · intro msg h0 hnr
    rw [rpcCall, rpcCallGo, h0]
    simp [hnr]
  · intro hall
    have := rpcCallGo_const_http cfg responses jitter 429 (by decide) hall
      cfg.maxRetries 0
    rw [rpcCall, this]
    simp
  · intro k v hk hretry hok
    have := rpcCallGo_success_after cfg responses jitter v k cfg.maxRetries 0
      hk (fun a ha => by simpa using hretry a ha) (by simpa using hok)
    rw [rpcCall, this]
    simp

open MarketShare in
/-- Claim C5, witness: with maxRetries = 3 and a constant-429 stream the
call performs exactly three waits of the right sizes and then fails with
the 429 failure; with a success at attempt 2 the retries stop there. -/
theorem C5_retry_policy_witness :
    rpcCall ⟨3, 250, 10000⟩ (fun _ => RpcResponse.http (V := Unit) 429)
        (fun a => a) =
      (Except.error (RpcFailure.httpError 429), [250, 501, 1002]) ∧
    rpcCall ⟨3, 250, 10000⟩
        (fun a => if a < 2 then RpcResponse.http 429 else RpcResponse.ok 7)
        (fun _ => 5) =
      (Except.ok 7, [255, 505]) := by
  constructor
  · have h := (C5_retry_policy ⟨3, 250, 10000⟩
      (fun _ => RpcResponse.http (V := Unit) 429) (fun a => a)).2.2.1
      (fun _ => rfl)
    rw [h]
    rfl
  · have h := (C5_retry_policy ⟨3, 250, 10000⟩
      (fun a => if a < 2 then RpcResponse.http 429 else RpcResponse.ok 7)
      (fun _ => 5)).2.2.2 2 7 (by decide)
      (fun a ha => by
        interval_cases a <;>
          exact (show retryableHttpStatus 429 = true by decide))
      rfl
    rw [h]
    rfl

namespace MarketShare

/-! ## The bounded-concurrency mapper (market-share.ts, lines 152-174)

mapWithConcurrency spawns Math.max(1, Math.min(concurrency, items.length))
workers over a shared monotonically increasing index.  A worker is either
ready to pull the next index, running one awaited call fn(items[i], i),
or finished after seeing the index pass the end of the list.  A schedule
lists which worker acts at each step, which captures every possible order
of promise completion. -/

inductive WorkerPhase where
  | ready
  | running (i : Nat)
  | finished
deriving DecidableEq

structure PoolState (R : Type) where
  next : Nat
  results : List (Option R)
  workers : List WorkerPhase
deriving DecidableEq

/-- Line 169: Math.max(1, Math.min(concurrency, items.length)). -/
def numWorkers (concurrency n : Nat) : Nat := max 1 (min concurrency n)

/-- The state before any worker acts: the shared index at 0, a pre-sized
result array, and every spawned worker ready. -/
def poolInit (R : Type) {A : Type} (concurrency : Nat) (items : List A) :
    PoolState R :=
  { next := 0, results := List.replicate items.length none,
    workers := List.replicate (numWorkers concurrency items.length) .ready }

/-- One scheduled action of worker w: a ready worker atomically takes
i = next++ and either starts running item i or finishes when the index
is past the end; a running worker completes its awaited call and writes
fn(items[i], i) into result slot i. -/
def poolStep {A R : Type} (items : List A) (fn : A → Nat → R)
    (st : PoolState R) (w : Nat) : PoolState R :=
  match st.workers[w]? with
  | none => st
  | some .finished => st
  | some .ready =>
    if st.next < items.length then
      { st with
        next := st.next + 1
        workers := st.workers.set w (.running st.next) }
    else { st with workers := st.workers.set w .finished }
  | some (.running i) =>
    match items[i]? with
    | some a =>
      { st with
        results := st.results.set i (some (fn a i))
        workers := st.workers.set w .ready }
    | none => st

/-- Run mapWithConcurrency under a given completion schedule. -/
def poolRun {A R : Type} (concurrency : Nat) (items : List A)
    (fn : A → Nat → R) (schedule : List Nat) : PoolState R :=
  schedule.foldl (poolStep items fn) (poolInit R concurrency items)

/-- Promise.all(workers) has resolved: every worker has returned. -/
def AllWorkersFinished {R : Type} (st : PoolState R) : Prop :=
  ∀ w ∈ st.workers, w = WorkerPhase.finished

instance {R : Type} (st : PoolState R) : Decidable (AllWorkersFinished st) :=
  List.decidableBAll (fun w => w = WorkerPhase.finished) st.workers

/-- The facts every reachable pool state satisfies. -/
def PoolInv {A R : Type} (items : List A) (fn : A → Nat → R)
    (st : PoolState R) : Prop :=
  st.results.length = items.length ∧
  0 < st.workers.length ∧
  (∀ w i : Nat, st.workers[w]? = some (WorkerPhase.running i) →
    i < st.next ∧ i < items.length) ∧
  (∀ i : Nat, i < st.next → i < items.length →
    (∃ a, items[i]? = some a ∧ st.results[i]? = some (some (fn a i))) ∨
    (∃ w : Nat, st.workers[w]? = some (WorkerPhase.running i))) ∧
  ((∃ w : Nat, st.workers[w]? = some WorkerPhase.finished) →
    items.length ≤ st.next)

theorem poolInv_init {A R : Type} (concurrency : Nat) (items : List A)
    (fn : A → Nat → R) : PoolInv items fn (poolInit R concurrency items) := by
  refine ⟨by simp [poolInit], ?_, ?_, ?_, ?_⟩
  · simp only [poolInit, List.length_replicate]
    exact Nat.lt_of_lt_of_le Nat.zero_lt_one (Nat.le_max_left ..)
  · intro w i hw
    simp only [poolInit, List.getElem?_replicate] at hw
    split at hw
    · cases hw
    · cases hw
  · intro i hi _
    simp only [poolInit] at hi
    omega
  · intro ⟨w, hw⟩
    simp only [poolInit, List.getElem?_replicate] at hw
    split at hw
    · cases hw
    · cases hw

theorem poolStep_eq_none {A R : Type} (items : List A) (fn : A → Nat → R)
    (st : PoolState R) (w : Nat) (h : st.workers[w]? = none) :
    poolStep items fn st w = st := by
  simp only [poolStep, h]

theorem poolStep_eq_finished {A R : Type} (items : List A) (fn : A → Nat → R)
    (st : PoolState R) (w : Nat)
    (h : st.workers[w]? = some WorkerPhase.finished) :
    poolStep items fn st w = st := by
  simp only [poolStep, h]

theorem poolStep_eq_take {A R : Type} (items : List A) (fn : A → Nat → R)
    (st : PoolState R) (w : Nat) (h : st.workers[w]? = some WorkerPhase.ready)
    (hn : st.next < items.length) :
    poolStep items fn st w =
      { st with
        next := st.next + 1
        workers := st.workers.set w (WorkerPhase.running st.next) } := by
  simp only [poolStep, h, hn, if_true]

theorem poolStep_eq_retire {A R : Type} (items : List A) (fn : A → Nat → R)
    (st : PoolState R) (w : Nat) (h : st.workers[w]? = some WorkerPhase.ready)
    (hn : ¬ st.next < items.length) :
    poolStep items fn st w =
      { st with workers := st.workers.set w WorkerPhase.finished } := by
  simp only [poolStep, h, hn, if_false]

theorem poolStep_eq_write {A R : Type} (items : List A) (fn : A → Nat → R)
    (st : PoolState R) (w i : Nat) (a : A)
    (h : st.workers[w]? = some (WorkerPhase.running i))
    (hi : items[i]? = some a) :
    poolStep items fn st w =
      { st with
        results := st.results.set i (some (fn a i))
        workers := st.workers.set w WorkerPhase.ready } := by
  simp only [poolStep, h, hi]

theorem poolStep_eq_stuck {A R : Type} (items : List A) (fn : A → Nat → R)
    (st : PoolState R) (w i : Nat)
    (h : st.workers[w]? = some (WorkerPhase.running i))
    (hi : items[i]? = none) :
    poolStep items fn st w = st := by
  simp only [poolStep, h, hi]

theorem poolInv_step {A R : Type} (items : List A) (fn : A → Nat → R)
    (st : PoolState R) (w : Nat) (h : PoolInv items fn st) :
    PoolInv items fn (poolStep items fn st w) := by
  obtain ⟨hlen, hwpos, hrun, hcov, hfin⟩ := h
  cases hw : st.workers[w]? with
  | none => rw [poolStep_eq_none items fn st w hw]; exact ⟨hlen, hwpos, hrun, hcov, hfin⟩
  | some ph =>
    have hwlt : w < st.workers.length := by
      by_contra hge
      rw [List.getElem?_eq_none (by omega)] at hw
      cases hw
    cases ph with
    | finished =>
      rw [poolStep_eq_finished items fn st w hw]
      exact ⟨hlen, hwpos, hrun, hcov, hfin⟩
    | ready =>
      by_cases hnext : st.next < items.length
      · rw [poolStep_eq_take items fn st w hw hnext]
        unfold PoolInv
        dsimp only
        refine ⟨hlen, by simpa using hwpos, ?_, ?_, ?_⟩
        · intro w' i hw'
          simp only [List.getElem?_set] at hw'
          by_cases hww : w = w'
          · rw [if_pos hww, if_pos hwlt] at hw'
            have : st.next = i := by
              injection hw' with h2
              injection h2
            omega
          · rw [if_neg hww] at hw'
            have := hrun w' i hw'
            omega
        · intro i hi hilen
          by_cases hie : i = st.next
          · subst hie
            right
            refine ⟨w, ?_⟩
            simp [List.getElem?_set, hwlt]
          · have hi' : i < st.next := by omega
            rcases hcov i hi' hilen with hres | ⟨w', hw'⟩
            · exact Or.inl hres
            · right
              by_cases hww : w = w'
              · rw [← hww, hw] at hw'
                cases hw'
              · refine ⟨w', ?_⟩
                simp only [List.getElem?_set, if_neg hww]
                exact hw'
        · intro ⟨w', hw'⟩
          simp only [List.getElem?_set] at hw'
          by_cases hww : w = w'
          · rw [if_pos hww, if_pos hwlt] at hw'
            cases hw'
          · rw [if_neg hww] at hw'
            have := hfin ⟨w', hw'⟩
            omega
      · rw [poolStep_eq_retire items fn st w hw hnext]
        unfold PoolInv
        dsimp only
        refine ⟨hlen, by simpa using hwpos, ?_, ?_, ?_⟩
        · intro w' i hw'
          simp only [List.getElem?_set] at hw'
          by_cases hww : w = w'
          · rw [if_pos hww, if_pos hwlt] at hw'
            cases hw'
          · rw [if_neg hww] at hw'
            exact hrun w' i hw'
        · intro i hi hilen
          rcases hcov i hi hilen with hres | ⟨w', hw'⟩
          · exact Or.inl hres
          · right
            by_cases hww : w = w'
            · rw [← hww, hw] at hw'
              cases hw'
            · refine ⟨w', ?_⟩
              simp only [List.getElem?_set, if_neg hww]
              exact hw'
        · intro _
          omega
    | running i =>
      cases hitem : items[i]? with
      | none =>
        rw [poolStep_eq_stuck items fn st w i hw hitem]
        exact ⟨hlen, hwpos, hrun, hcov, hfin⟩
      | some a =>
        rw [poolStep_eq_write items fn st w i a hw hitem]
        unfold PoolInv
        dsimp only
        have hilen : i < items.length := (hrun w i hw).2
        refine ⟨by simpa using hlen, by simpa using hwpos, ?_, ?_, ?_⟩
        · intro w' i' hw'
          simp only [List.getElem?_set] at hw'
          by_cases hww : w = w'
          · rw [if_pos hww, if_pos hwlt] at hw'
            cases hw'
          · rw [if_neg hww] at hw'
            exact hrun w' i' hw'
        · intro i' hi' hilen'
          by_cases hie : i' = i
          · subst hie
            left
            refine ⟨a, hitem, ?_⟩
            simp [List.getElem?_set, (by omega : i' < st.results.length)]
          · rcases hcov i' hi' hilen' with ⟨a', ha', hres⟩ | ⟨w', hw'⟩
            · left
              refine ⟨a', ha', ?_⟩
              simp only [List.getElem?_set]
              rw [if_neg (fun hc => hie hc.symm)]
              exact hres
            · by_cases hww : w = w'
              · rw [← hww, hw] at hw'
                have : i = i' := by
                  injection hw' with h2
                  injection h2
                exact absurd this.symm hie
              · right
                refine ⟨w', ?_⟩
                simp only [List.getElem?_set, if_neg hww]
                exact hw'
        · intro ⟨w', hw'⟩
          simp only [List.getElem?_set] at hw'
          by_cases hww : w = w'
          · rw [if_pos hww, if_pos hwlt] at hw'
            cases hw'
          · rw [if_neg hww] at hw'
            exact hfin ⟨w', hw'⟩

theorem poolInv_run {A R : Type} (concurrency : Nat) (items : List A)
    (fn : A → Nat → R) (schedule : List Nat) :
    PoolInv items fn (poolRun concurrency items fn schedule) := by
  rw [poolRun]
  induction schedule using List.reverseRecOn with
  | nil => exact poolInv_init concurrency items fn
  | append_singleton sch w ih =>
    rw [List.foldl_append, List.foldl_cons, List.foldl_nil]
    exact poolInv_step items fn _ w ih

end MarketShare

/-! ## Claim C6 -/

open MarketShare in
/-- Claim C6, counterexample.  The claim bounds the spawned workers by
min(concurrency, items.length); on an empty item list that bound is 0,
yet line 169 clamps the worker count from below by 1, so one worker is
spawned. -/
theorem C6_counterexample :
    (poolInit Nat 5 ([] : List Nat)).workers.length = 1 ∧
    min 5 (List.length ([] : List Nat)) = 0 := by
  constructor <;> decide

open MarketShare in
/-- Claim C6, amended: for every item list, every concurrency value and
every schedule of worker actions (hence every order in which the per-item
promises complete), once all workers have finished the result array holds
fn(items[i], i) at every index i; the pool spawns exactly
max(1, min(concurrency, items.length)) workers, which is bounded by
min(concurrency, items.length) whenever the item list is nonempty and the
concurrency is at least 1. -/
theorem C6_map_with_concurrency {A R : Type} (concurrency : Nat)
    (items : List A) (fn : A → Nat → R) (schedule : List Nat)
    (hdone : AllWorkersFinished (poolRun concurrency items fn schedule)) :
    (∀ (i : Nat) (a : A), items[i]? = some a →
      (poolRun concurrency items fn schedule).results[i]? =
        some (some (fn a i))) ∧
    (poolInit R concurrency items).workers.length =
      max 1 (min concurrency items.length) ∧
    (1 ≤ concurrency → 1 ≤ items.length →
      (poolInit R concurrency items).workers.length ≤
        min concurrency items.length) := by
  obtain ⟨hlen, hwpos, hrun, hcov, hfin⟩ :=
    poolInv_run (R := R) concurrency items fn schedule
  refine ⟨?_, by simp [poolInit, numWorkers], ?_⟩
  · intro i a ha
    have hil : i < items.length := by
      by_contra hge
      rw [List.getElem?_eq_none (by omega)] at ha
      cases ha
    set st := poolRun concurrency items fn schedule with hst
    have hnext : items.length ≤ st.next := by
      obtain ⟨wph, hmem⟩ := List.exists_mem_of_length_pos hwpos
      have hwidx : ∃ w : Nat, st.workers[w]? = some wph := by
        obtain ⟨w, hwlt, hg⟩ := List.getElem_of_mem hmem
        exact ⟨w, by rw [List.getElem?_eq_getElem hwlt, hg]⟩
      obtain ⟨w, hw⟩ := hwidx
      have := hdone wph hmem
      subst this
      exact hfin ⟨w, hw⟩
    rcases hcov i (by omega) hil with ⟨a', ha', hres⟩ | ⟨w, hw⟩
    · rw [ha] at ha'
      cases ha'
      exact hres
    · have hmem : WorkerPhase.running i ∈ st.workers := by
        obtain ⟨hlt2, hg⟩ := List.getElem?_eq_some_iff.mp hw
        exact hg ▸ List.getElem_mem hlt2
      have := hdone _ hmem
      cases this
  · intro hc hn
    simp only [poolInit, List.length_replicate, numWorkers]
    omega

open MarketShare in
/-- Claim C6, witness: one worker working through two items under the
schedule take, complete, take, complete, take-and-finish; the results
line up with fn(items[i], i). -/
theorem C6_map_with_concurrency_witness :
    (∀ (i a : Nat), [10, 20][i]? = some a →
      (poolRun 1 [10, 20] (fun a i => a + i) [0, 0, 0, 0, 0]).results[i]? =
        some (some (a + i))) ∧
    (poolInit Nat 1 [10, 20]).workers.length = max 1 (min 1 2) := by
  have h := C6_map_with_concurrency 1 [10, 20] (fun a i => a + i)
    [0, 0, 0, 0, 0] (by decide)
  exact ⟨h.1, h.2.1⟩

namespace Scan

open Eip7702

/-! ## The address shard store and its finalize (part_000 / part_003)

The scan appends each recovered authority line to an in-memory buffer
keyed by the first byte of the address; once 20000 lines are buffered,
every buffer is appended to its durable shard file.  The finalize step
walks shard names 00..ff in order, dedupes and sorts each shard file
independently and concatenates the results.  Shard files are append-only,
so a single list of flushed lines filtered by shard key reproduces every
file. -/

/-- The scripts' isHexAddress: the regular expression anchored 0x followed
by exactly forty characters of the class [0-9a-fA-F]. -/
def isHexAddressStr (s : String) : Bool :=
  s.data.length == 42 && jsStartsWith s "0x" &&
    (s.data.drop 2).all (· ∈ hexAnyChars)

/-- A line exactly as the scan itself appends it: the normalizeAddress
output, i.e. lower-case 0x-prefixed 40-hex-digit, with no surrounding
whitespace. -/
def isCanonicalAddress (s : String) : Bool :=
  s.data.length == 42 && jsStartsWith s "0x" &&
    (s.data.drop 2).all (· ∈ hexLowerChars)

/-- part_000 shardForAddress: lower-case, strip one leading 0x, first two
characters. -/
def shardForAddress (addr : String) : String :=
  let t := jsToLower addr
  let u := if jsStartsWith t "0x" then String.mk (t.data.drop 2) else t
  String.mk (u.data.take 2)

/-- The n-th lower-case hexadecimal digit. -/
def hexChar (n : Nat) : Char := hexLowerChars.getD n '0'

/-- The shard name i.toString(16).padStart(2, "0") enumerated by the
finalize loop, for i below 256. -/
def hexKeyStr (i : Nat) : String :=
  String.mk [hexChar (i / 16), hexChar (i % 16)]

/-- The content of shard file k.txt: the flushed lines assigned to shard
k, in flush order. -/
def shardFile (flushed : List String) (k : Nat) : List String :=
  flushed.filter (fun l => shardForAddress l == hexKeyStr k)

/-- JavaScript new Set(...) iteration order: first occurrences survive. -/
def jsSetDedupAux (seen : List String) : List String → List String
  | [] => []
  | a :: rest =>
    if a ∈ seen then jsSetDedupAux seen rest
    else a :: jsSetDedupAux (a :: seen) rest

def jsSetDedup (l : List String) : List String := jsSetDedupAux [] l

/-- The per-shard body of buildUniqueAddressFileFromShards: trim and
lower-case every line, drop empty lines, keep only well-formed addresses,
dedupe with a Set and sort with the default string sort. -/
def processShardLines (lines : List String) : List String :=
  List.insertionSort (· ≤ ·)
    (jsSetDedup
      (((lines.map (fun l => jsToLower (jsTrim l))).filter
        (fun l => !(l == ""))).filter isHexAddressStr))

/-- buildUniqueAddressFileFromShards: walk shard names 00..ff in order,
dedupe and sort each shard independently, concatenate into the output
file and return the total count. -/
def buildUniqueAddressFileFromShards (flushed : List String) :
    List String × Nat :=
  (List.range 256).foldl
    (fun acc k =>
      let uniq := processShardLines (shardFile flushed k)
      (acc.1 ++ uniq, acc.2 + uniq.length))
    ([], 0)

/-- The function starts with writeFileSync(outFile, emptyString) and only
then appends, so the produced file never depends on the prior output. -/
def finalizeOutputFile (priorOutput : List String)
    (flushed : List String) : List String :=
  (buildUniqueAddressFileFromShards flushed).1

/-- The store state: durable flushed lines, the lines still sitting in
the in-memory per-shard buffers, and the bufferedLines counter. -/
structure ShardStore where
  flushed : List String
  buffered : List String
  bufferedLines : Nat
deriving DecidableEq

def emptyStore : ShardStore := ⟨[], [], 0⟩

/-- part_000 flushBuffers: append every buffered line to its shard file;
the caller resets the counter. -/
def flushStore (st : ShardStore) : ShardStore :=
  { flushed := st.flushed ++ st.buffered
    buffered := []
    bufferedLines := 0 }

/-- part_000 FLUSH_THRESHOLD. -/
def FLUSH_THRESHOLD : Nat := 20000

/-- Appending one authority line (part_000 lines 302-311): push it to its
shard buffer, count it, and flush every buffer once the threshold is
reached. -/
def appendAddress (threshold : Nat) (st : ShardStore) (a : String) :
    ShardStore :=
  let st' : ShardStore :=
    { st with
      buffered := st.buffered ++ [a]
      bufferedLines := st.bufferedLines + 1 }
  if threshold ≤ st'.bufferedLines then flushStore st' else st'

def appendAll (threshold : Nat) (st : ShardStore) (as : List String) :
    ShardStore :=
  as.foldl (appendAddress threshold) st

/-- main (part_000 lines 360-362): flushBuffers, then build the deduped
output from the shard files. -/
def storeFinalize (st : ShardStore) : List String × Nat :=
  buildUniqueAddressFileFromShards (flushStore st).flushed

/-- Whatever the flush timing, flushing at the end leaves exactly the
appended lines on disk, in append order. -/
theorem appendAll_flushStore (threshold : Nat) :
    ∀ (as : List String) (st : ShardStore),
      (flushStore (appendAll threshold st as)).flushed =
        st.flushed ++ st.buffered ++ as := by
  intro as
  induction as with
  | nil => intro st; simp [appendAll, flushStore]
  | cons a rest ih =>
    intro st
    show (flushStore (appendAll threshold (appendAddress threshold st a)
      rest)).flushed = _
    rw [ih]
    unfold appendAddress
    by_cases hth : threshold ≤ st.bufferedLines + 1
    · simp only [hth, if_true, flushStore]
      simp [List.append_assoc]
    · simp only [hth, if_false]
      simp [List.append_assoc]

theorem mem_jsSetDedupAux (x : String) :
    ∀ (l seen : List String),
      x ∈ jsSetDedupAux seen l ↔ (x ∈ l ∧ ¬ x ∈ seen) := by
  intro l
  induction l with
  | nil => intro seen; simp [jsSetDedupAux]
  | cons a rest ih =>
    intro seen
    by_cases hmem : a ∈ seen
    · simp only [jsSetDedupAux, hmem, if_true, ih, List.mem_cons]
      constructor
      · rintro ⟨hx, hns⟩
        exact ⟨Or.inr hx, hns⟩
      · rintro ⟨hx | hx, hns⟩
        · exact absurd (hx ▸ hmem) hns
        · exact ⟨hx, hns⟩
    · simp only [jsSetDedupAux, hmem, if_false, List.mem_cons, ih]
      by_cases hxa : x = a
      · subst hxa
        simp [hmem]
      · simp only [hxa, false_or]

theorem mem_jsSetDedup (x : String) (l : List String) :
    x ∈ jsSetDedup l ↔ x ∈ l := by
  rw [jsSetDedup, mem_jsSetDedupAux]
  simp

theorem nodup_jsSetDedupAux :
    ∀ (l seen : List String), (jsSetDedupAux seen l).Nodup := by
  intro l
  induction l with
  | nil => intro seen; simp [jsSetDedupAux]
  | cons a rest ih =>
    intro seen
    by_cases hmem : a ∈ seen
    · simp only [jsSetDedupAux, hmem, if_true]
      exact ih seen
    · simp only [jsSetDedupAux, hmem, if_false, List.nodup_cons]
      refine ⟨fun hc => ?_, ih (a :: seen)⟩
      exact ((mem_jsSetDedupAux a rest (a :: seen)).mp hc).2
        (List.mem_cons_self ..)

theorem nodup_jsSetDedup (l : List String) : (jsSetDedup l).Nodup :=
  nodup_jsSetDedupAux l []

end Scan

namespace Scan

open Eip7702

/-! ## Canonical lines and the shard-key order -/

theorem canonicalChars_toLower :
    ∀ c ∈ ('0' :: 'x' :: hexLowerChars), Char.toLower c = c := by decide

theorem canonicalChars_notWs :
    ∀ c ∈ ('0' :: 'x' :: hexLowerChars), isJsWhitespace c = false := by
  decide

theorem hexLower_subset_any : ∀ c ∈ hexLowerChars, c ∈ hexAnyChars := by
  decide

theorem hexChar_lt_hexChar :
    ∀ i : Fin 16, ∀ j : Fin 16, i < j → hexChar i < hexChar j := by decide

theorem hexChar_mem_surj :
    ∀ c ∈ hexLowerChars, ∃ i : Fin 16, hexChar i = c := by decide

theorem canonical_shape (s : String) (h : isCanonicalAddress s = true) :
    ∃ c1 c2 r, s.data = '0' :: 'x' :: c1 :: c2 :: r ∧
      c1 ∈ hexLowerChars ∧ c2 ∈ hexLowerChars ∧
      ∀ c ∈ s.data, c ∈ ('0' :: 'x' :: hexLowerChars) := by
  unfold isCanonicalAddress at h
  rw [Bool.and_eq_true, Bool.and_eq_true] at h
  obtain ⟨⟨hlen, hpre⟩, hall⟩ := h
  rw [jsStartsWith, List.isPrefixOf_iff_prefix] at hpre
  obtain ⟨t, ht⟩ := hpre
  have hdata : s.data = '0' :: 'x' :: t := by
    rw [← ht]
    rfl
  have hall2 : ∀ c ∈ t, c ∈ hexLowerChars := by
    intro c hc
    have := (List.all_eq_true.mp hall) c (by rw [hdata]; exact hc)
    simpa using this
  have hlent : t.length = 40 := by
    have h42 : s.data.length = 42 := by simpa using hlen
    rw [hdata] at h42
    simpa using h42
  obtain ⟨c1, t1, ht1⟩ : ∃ c1 t1, t = c1 :: t1 := by
    cases t with
    | nil => simp at hlent
    | cons a b => exact ⟨a, b, rfl⟩
  obtain ⟨c2, r, ht2⟩ : ∃ c2 r, t1 = c2 :: r := by
    cases t1 with
    | nil => rw [ht1] at hlent; simp at hlent
    | cons a b => exact ⟨a, b, rfl⟩
  subst ht1
  subst ht2
  refine ⟨c1, c2, r, by rw [hdata], ?_, ?_, ?_⟩
  · exact hall2 c1 (by simp)
  · exact hall2 c2 (by simp)
  · intro c hc
    rw [hdata] at hc
    simp only [List.mem_cons] at hc ⊢
    rcases hc with rfl | rfl | hc
    · exact Or.inl rfl
    · exact Or.inr (Or.inl rfl)
    · exact Or.inr (Or.inr (hall2 c (by simpa using hc)))

theorem dropWhile_all_false {α : Type} (p : α → Bool) :
    ∀ l : List α, (∀ c ∈ l, p c = false) → l.dropWhile p = l := by
  intro l
  induction l with
  | nil => intro _; rfl
  | cons a rest _ =>
    intro h
    rw [List.dropWhile_cons, h a (List.mem_cons_self ..)]
    simp

theorem jsTrim_eq_self (s : String)
    (h : ∀ c ∈ s.data, isJsWhitespace c = false) : jsTrim s = s := by
  unfold jsTrim
  rw [dropWhile_all_false _ _ h]
  rw [dropWhile_all_false _ _
    (fun c hc => h c (by rwa [List.mem_reverse] at hc))]
  rw [List.reverse_reverse]

theorem jsToLower_eq_self (s : String)
    (h : ∀ c ∈ s.data, Char.toLower c = c) : jsToLower s = s := by
  unfold jsToLower
  rw [show List.map Char.toLower s.data = List.map id s.data from
    List.map_congr_left h, List.map_id]

theorem jsToLower_canonical (s : String)
    (h : isCanonicalAddress s = true) : jsToLower s = s := by
  obtain ⟨_, _, _, _, _, _, hmem⟩ := canonical_shape s h
  exact jsToLower_eq_self s
    (fun c hc => canonicalChars_toLower c (hmem c hc))

theorem jsTrim_canonical (s : String)
    (h : isCanonicalAddress s = true) : jsTrim s = s := by
  obtain ⟨_, _, _, _, _, _, hmem⟩ := canonical_shape s h
  exact jsTrim_eq_self s (fun c hc => canonicalChars_notWs c (hmem c hc))

theorem canonical_isHex (s : String) (h : isCanonicalAddress s = true) :
    isHexAddressStr s = true := by
  unfold isCanonicalAddress at h
  unfold isHexAddressStr
  rw [Bool.and_eq_true, Bool.and_eq_true] at h ⊢
  refine ⟨h.1, ?_⟩
  rw [List.all_eq_true] at h ⊢
  intro c hc
  have := h.2 c hc
  simp only [decide_eq_true_eq] at this ⊢
  exact hexLower_subset_any c this

theorem canonical_ne_empty (s : String)
    (h : isCanonicalAddress s = true) : (s == "") = false := by
  rw [beq_eq_false_iff_ne]
  intro hc
  obtain ⟨c1, c2, r, hd, _⟩ := canonical_shape s h
  rw [hc] at hd
  cases hd

theorem shardForAddress_canonical (s : String) (c1 c2 : Char)
    (r : List Char) (hd : s.data = '0' :: 'x' :: c1 :: c2 :: r)
    (hlow : jsToLower s = s) :
    shardForAddress s = String.mk [c1, c2] := by
  have hpre : jsStartsWith s "0x" = true := by
    rw [jsStartsWith, List.isPrefixOf_iff_prefix]
    exact ⟨c1 :: c2 :: r, by rw [hd]; rfl⟩
  simp only [shardForAddress, hlow, hpre, if_true]
  rw [hd]
  rfl

theorem canonical_lt_of_key_lt (x y : String)
    (hx : isCanonicalAddress x = true) (hy : isCanonicalAddress y = true)
    (k1 k2 : Nat) (hk1 : k1 < 256) (hk2 : k2 < 256)
    (hkx : shardForAddress x = hexKeyStr k1)
    (hky : shardForAddress y = hexKeyStr k2) (hlt : k1 < k2) : x < y := by
  obtain ⟨c1, c2, r, hdx, _, _, _⟩ := canonical_shape x hx
  obtain ⟨d1, d2, r', hdy, _, _, _⟩ := canonical_shape y hy
  rw [shardForAddress_canonical x c1 c2 r hdx (jsToLower_canonical x hx)]
    at hkx
  rw [shardForAddress_canonical y d1 d2 r' hdy (jsToLower_canonical y hy)]
    at hky
  have ex : c1 = hexChar (k1 / 16) ∧ c2 = hexChar (k1 % 16) := by
    have := congrArg String.data hkx
    simp only [hexKeyStr] at this
    simpa using this
  have ey : d1 = hexChar (k2 / 16) ∧ d2 = hexChar (k2 % 16) := by
    have := congrArg String.data hky
    simp only [hexKeyStr] at this
    simpa using this
  have hq1 : k1 / 16 < 16 := by omega
  have hq2 : k2 / 16 < 16 := by omega
  have hr1 : k1 % 16 < 16 := by omega
  have hr2 : k2 % 16 < 16 := by omega
  rw [String.lt_iff_toList_lt]
  show List.Lex (· < ·) x.data y.data
  rcases Nat.lt_or_ge (k1 / 16) (k2 / 16) with hq | hq
  · have hc : c1 < d1 := by
      rw [ex.1, ey.1]
      exact hexChar_lt_hexChar ⟨k1 / 16, hq1⟩ ⟨k2 / 16, hq2⟩ hq
    rw [hdx, hdy]
    exact List.Lex.cons (List.Lex.cons (List.Lex.rel hc))
  · have hdiv : k1 / 16 = k2 / 16 ∧ k1 % 16 < k2 % 16 := by omega
    have hc1 : c1 = d1 := by
      rw [ex.1, ey.1, hdiv.1]
    have hc : c2 < d2 := by
      rw [ex.2, ey.2]
      exact hexChar_lt_hexChar ⟨k1 % 16, hr1⟩ ⟨k2 % 16, hr2⟩ hdiv.2
    rw [hdx, hdy, hc1]
    exact List.Lex.cons (List.Lex.cons (List.Lex.cons (List.Lex.rel hc)))

end Scan

namespace Scan

open Eip7702

/-! ## Properties of the finalize step -/

theorem foldl_append_count (f : Nat → List String) :
    ∀ (ks : List Nat) (acc : List String) (n : Nat),
      ks.foldl (fun a k => (a.1 ++ f k, a.2 + (f k).length)) (acc, n) =
        (acc ++ (ks.map f).flatten, n + ((ks.map f).flatten).length) := by
  intro ks
  induction ks with
  | nil => intro acc n; simp
  | cons k rest ih =>
    intro acc n
    rw [List.foldl_cons, ih]
    simp [List.append_assoc, List.length_append]
    omega

theorem buildUnique_eq (flushed : List String) :
    buildUniqueAddressFileFromShards flushed =
      (((List.range 256).map
          fun k => processShardLines (shardFile flushed k)).flatten,
       ((List.range 256).map
          fun k => processShardLines (shardFile flushed k)).flatten.length)
    := by
  have h := foldl_append_count
    (fun k => processShardLines (shardFile flushed k)) (List.range 256) [] 0
  simpa [buildUniqueAddressFileFromShards] using h

theorem sorted_processShardLines (lines : List String) :
    List.Sorted (· ≤ ·) (processShardLines lines) :=
  List.sorted_insertionSort _ _

theorem nodup_processShardLines (lines : List String) :
    (processShardLines lines).Nodup :=
  (List.perm_insertionSort _ _).symm.nodup (nodup_jsSetDedup _)

theorem sorted_lt_processShardLines (lines : List String) :
    List.Sorted (· < ·) (processShardLines lines) :=
  (sorted_processShardLines lines).lt_of_le (nodup_processShardLines lines)

theorem processShardLines_canonical (lines : List String)
    (h : ∀ l ∈ lines, isCanonicalAddress l = true) :
    processShardLines lines =
      List.insertionSort (· ≤ ·) (jsSetDedup lines) := by
  unfold processShardLines
  have hmap : lines.map (fun l => jsToLower (jsTrim l)) = lines := by
    have hpt : ∀ l ∈ lines, jsToLower (jsTrim l) = id l := fun l hl => by
      rw [jsTrim_canonical l (h l hl), jsToLower_canonical l (h l hl)]
      rfl
    rw [List.map_congr_left hpt, List.map_id]
  rw [hmap]
  rw [List.filter_eq_self.mpr
    (fun a ha => canonical_isHex a (h a (List.mem_filter.mp ha).1))]
  rw [List.filter_eq_self.mpr
    (fun a ha => by rw [canonical_ne_empty a (h a ha)]; rfl)]

theorem mem_processShardLines_canonical (lines : List String)
    (h : ∀ l ∈ lines, isCanonicalAddress l = true) (x : String) :
    x ∈ processShardLines lines ↔ x ∈ lines := by
  rw [processShardLines_canonical lines h, List.mem_insertionSort,
    mem_jsSetDedup]

theorem mem_shardFile (flushed : List String) (k : Nat) (x : String) :
    x ∈ shardFile flushed k ↔
      x ∈ flushed ∧ shardForAddress x = hexKeyStr k := by
  rw [shardFile, List.mem_filter]
  simp [beq_iff_eq]

theorem canonical_key (x : String) (hx : isCanonicalAddress x = true) :
    ∃ k, k < 256 ∧ shardForAddress x = hexKeyStr k := by
  obtain ⟨c1, c2, r, hd, h1, h2, _⟩ := canonical_shape x hx
  obtain ⟨i1, hi1⟩ := hexChar_mem_surj c1 h1
  obtain ⟨i2, hi2⟩ := hexChar_mem_surj c2 h2
  have hb1 : (i1 : Nat) < 16 := i1.isLt
  have hb2 : (i2 : Nat) < 16 := i2.isLt
  refine ⟨16 * (i1 : Nat) + (i2 : Nat), by omega, ?_⟩
  rw [shardForAddress_canonical x c1 c2 r hd (jsToLower_canonical x hx)]
  rw [hexKeyStr]
  have e1 : (16 * (i1 : Nat) + (i2 : Nat)) / 16 = (i1 : Nat) := by omega
  have e2 : (16 * (i1 : Nat) + (i2 : Nat)) % 16 = (i2 : Nat) := by omega
  rw [e1, e2, hi1, hi2]

theorem mem_buildUnique (flushed : List String)
    (hc : ∀ l ∈ flushed, isCanonicalAddress l = true) (x : String) :
    x ∈ (buildUniqueAddressFileFromShards flushed).1 ↔ x ∈ flushed := by
  rw [buildUnique_eq]
  simp only [List.mem_flatten, List.mem_map]
  constructor
  · rintro ⟨blk, ⟨k, hk, rfl⟩, hxblk⟩
    have hcshard : ∀ l ∈ shardFile flushed k, isCanonicalAddress l = true :=
      fun l hl => hc l ((mem_shardFile flushed k l).mp hl).1
    exact ((mem_shardFile flushed k x).mp
      ((mem_processShardLines_canonical _ hcshard x).mp hxblk)).1
  · intro hx
    obtain ⟨k, hk, hkey⟩ := canonical_key x (hc x hx)
    refine ⟨processShardLines (shardFile flushed k),
      ⟨k, List.mem_range.mpr hk, rfl⟩, ?_⟩
    rw [mem_processShardLines_canonical _
      (fun l hl => hc l ((mem_shardFile flushed k l).mp hl).1)]
    rw [mem_shardFile]
    exact ⟨hx, hkey⟩

theorem sorted_buildUnique (flushed : List String)
    (hc : ∀ l ∈ flushed, isCanonicalAddress l = true) :
    List.Sorted (· < ·) (buildUniqueAddressFileFromShards flushed).1 := by
  rw [buildUnique_eq]
  rw [List.Sorted, List.pairwise_flatten]
  constructor
  · intro l hl
    obtain ⟨k, _, rfl⟩ := List.mem_map.mp hl
    exact sorted_lt_processShardLines _
  · rw [List.pairwise_map, List.pairwise_iff_getElem]
    intro i j hi hj hij
    rw [List.length_range] at hi hj
    intro x hx y hy
    rw [List.getElem_range] at hx hy
    have hcxs : ∀ l ∈ shardFile flushed i, isCanonicalAddress l = true :=
      fun l hl => hc l ((mem_shardFile flushed i l).mp hl).1
    have hcys : ∀ l ∈ shardFile flushed j, isCanonicalAddress l = true :=
      fun l hl => hc l ((mem_shardFile flushed j l).mp hl).1
    have hxs := (mem_shardFile flushed i x).mp
      ((mem_processShardLines_canonical _ hcxs x).mp hx)
    have hys := (mem_shardFile flushed j y).mp
      ((mem_processShardLines_canonical _ hcys y).mp hy)
    exact canonical_lt_of_key_lt x y (hc x hxs.1) (hc y hys.1) i j hi hj
      hxs.2 hys.2 hij

theorem nodup_buildUnique (flushed : List String)
    (hc : ∀ l ∈ flushed, isCanonicalAddress l = true) :
    (buildUniqueAddressFileFromShards flushed).1.Nodup :=
  (sorted_buildUnique flushed hc).imp ne_of_lt

theorem toFinset_buildUnique (flushed : List String)
    (hc : ∀ l ∈ flushed, isCanonicalAddress l = true) :
    (buildUniqueAddressFileFromShards flushed).1.toFinset =
      flushed.toFinset := by
  ext a
  rw [List.mem_toFinset, List.mem_toFinset, mem_buildUnique flushed hc]

theorem count_buildUnique (flushed : List String)
    (hc : ∀ l ∈ flushed, isCanonicalAddress l = true) :
    (buildUniqueAddressFileFromShards flushed).2 =
      flushed.toFinset.card := by
  have h2 : (buildUniqueAddressFileFromShards flushed).2 =
      (buildUniqueAddressFileFromShards flushed).1.length := by
    rw [buildUnique_eq]
  rw [h2, ← List.toFinset_card_of_nodup (nodup_buildUnique flushed hc),
    toFinset_buildUnique flushed hc]

theorem processShardLines_perm (l l' : List String) (h : l.Perm l') :
    processShardLines l = processShardLines l' := by
  have hA : ((((l.map (fun s => jsToLower (jsTrim s))).filter
        (fun s => !(s == ""))).filter isHexAddressStr)).Perm
      ((((l'.map (fun s => jsToLower (jsTrim s))).filter
        (fun s => !(s == ""))).filter isHexAddressStr)) :=
    ((h.map _).filter _).filter _
  have hd : (jsSetDedup (((l.map (fun s => jsToLower (jsTrim s))).filter
        (fun s => !(s == ""))).filter isHexAddressStr)).Perm
      (jsSetDedup (((l'.map (fun s => jsToLower (jsTrim s))).filter
        (fun s => !(s == ""))).filter isHexAddressStr)) := by
    rw [List.perm_ext_iff_of_nodup (nodup_jsSetDedup _)
      (nodup_jsSetDedup _)]
    intro a
    rw [mem_jsSetDedup, mem_jsSetDedup]
    exact hA.mem_iff
  refine List.eq_of_perm_of_sorted ?_ (sorted_processShardLines l)
    (sorted_processShardLines l')
  exact (List.perm_insertionSort _ _).trans
    (hd.trans (List.perm_insertionSort _ _).symm)

theorem buildUnique_perm (flushed flushed' : List String)
    (h : flushed.Perm flushed') :
    buildUniqueAddressFileFromShards flushed =
      buildUniqueAddressFileFromShards flushed' := by
  rw [buildUnique_eq, buildUnique_eq]
  have hk : ∀ k : Nat, processShardLines (shardFile flushed k) =
      processShardLines (shardFile flushed' k) :=
    fun k => processShardLines_perm _ _ (h.filter _)
  simp only [hk]

end Scan

/-! ## Claim C4 -/

open Scan in
/-- Claim C4: for every sequence of appended addresses (canonical
lower-case 0x-prefixed addresses, which is what the scan appends), in any
append order and with any flush timing, finalize produces an output that
is globally sorted and duplicate-free, and the total it returns equals
the number of distinct addresses ever appended; re-running finalize
overwrites the prior output and yields the same result. -/
theorem C4_finalize_unique_sorted (threshold threshold' : Nat)
    (as as' : List String)
    (hc : ∀ a ∈ as, isCanonicalAddress a = true) (hp : as.Perm as') :
    List.Sorted (· < ·)
      (storeFinalize (appendAll threshold emptyStore as)).1 ∧
    (storeFinalize (appendAll threshold emptyStore as)).1.Nodup ∧
    (storeFinalize (appendAll threshold emptyStore as)).2 =
      as.toFinset.card ∧
    (storeFinalize (appendAll threshold emptyStore as)).1.toFinset =
      as.toFinset ∧
    storeFinalize (appendAll threshold emptyStore as) =
      storeFinalize (appendAll threshold' emptyStore as') ∧
    (∀ p p' : List String,
      finalizeOutputFile p
          (flushStore (appendAll threshold emptyStore as)).flushed =
        finalizeOutputFile p'
          (flushStore (appendAll threshold emptyStore as)).flushed) := by
  have hc' : ∀ a ∈ as', isCanonicalAddress a = true :=
    fun a ha => hc a (hp.mem_iff.mpr ha)
  have hfl : (flushStore (appendAll threshold emptyStore as)).flushed = as
    := by
    rw [appendAll_flushStore]
    simp [emptyStore]
  have hfl' :
      (flushStore (appendAll threshold' emptyStore as')).flushed = as' := by
    rw [appendAll_flushStore]
    simp [emptyStore]
  have hsf : storeFinalize (appendAll threshold emptyStore as) =
      buildUniqueAddressFileFromShards as := by
    rw [storeFinalize, hfl]
  have hsf' : storeFinalize (appendAll threshold' emptyStore as') =
      buildUniqueAddressFileFromShards as' := by
    rw [storeFinalize, hfl']
  refine ⟨?_, ?_, ?_, ?_, ?_, ?_⟩
  · rw [hsf]; exact sorted_buildUnique as hc
  · rw [hsf]; exact nodup_buildUnique as hc
  · rw [hsf]; exact count_buildUnique as hc
  · rw [hsf]; exact toFinset_buildUnique as hc
  · rw [hsf, hsf']; exact buildUnique_perm as as' hp
  · intro p p'
    rfl

open Scan in
set_option maxRecDepth 16384 in
/-- Claim C4, witness: three appends holding two distinct addresses, once
with the buffers flushing after every second line and once with the
production threshold; both runs produce the same sorted, deduplicated,
correctly counted output. -/
theorem C4_finalize_unique_sorted_witness :
    (storeFinalize (appendAll 2 emptyStore
        ["0xff000000000000000000000000000000000000bb",
         "0x00000000000000000000000000000000000000aa",
         "0xff000000000000000000000000000000000000bb"])).1 =
      ["0x00000000000000000000000000000000000000aa",
       "0xff000000000000000000000000000000000000bb"] ∧
    (storeFinalize (appendAll 2 emptyStore
        ["0xff000000000000000000000000000000000000bb",
         "0x00000000000000000000000000000000000000aa",
         "0xff000000000000000000000000000000000000bb"])).2 = 2 ∧
    storeFinalize (appendAll 2 emptyStore
        ["0xff000000000000000000000000000000000000bb",
         "0x00000000000000000000000000000000000000aa",
         "0xff000000000000000000000000000000000000bb"]) =
      storeFinalize (appendAll FLUSH_THRESHOLD emptyStore
        ["0x00000000000000000000000000000000000000aa",
         "0xff000000000000000000000000000000000000bb",
         "0xff000000000000000000000000000000000000bb"]) := by
  have h := C4_finalize_unique_sorted 2 FLUSH_THRESHOLD
    ["0xff000000000000000000000000000000000000bb",
     "0x00000000000000000000000000000000000000aa",
     "0xff000000000000000000000000000000000000bb"]
    ["0x00000000000000000000000000000000000000aa",
     "0xff000000000000000000000000000000000000bb",
     "0xff000000000000000000000000000000000000bb"]
    (by decide) (by decide)
  exact ⟨by decide, by decide, h.2.2.2.2.1⟩

namespace Scan

/-! ## The paginated scan, its checkpoint, and crash/resume (part_000 main)

Each page of type-4 transactions yields a list of authority lines
(recovered or fallback), all appended to the shard store; after the page
is processed, main persists the checkpoint holding the next cursor
(part_000 lines 317-324), before requesting the next page.  The durable
state an abrupt termination preserves is the shard files plus that
checkpoint; the in-memory shard buffers are lost. -/

def processPage (threshold : Nat) (st : ShardStore)
    (page : List String) : ShardStore :=
  appendAll threshold st page

def runPages (threshold : Nat) (st : ShardStore)
    (pages : List (List String)) : ShardStore :=
  pages.foldl (processPage threshold) st

/-- Abrupt termination: shard files survive, buffers are lost. -/
def crashStore (st : ShardStore) : ShardStore :=
  { flushed := st.flushed
    buffered := []
    bufferedLines := 0 }

/-- The finalize output of an uninterrupted scan over the range. -/
def uninterruptedScan (threshold : Nat) (pages : List (List String)) :
    List String × Nat :=
  storeFinalize (runPages threshold emptyStore pages)

/-- Kill the scan right after the checkpoint of page k-1 was written
(with nextBlock pointing at page k), restart with RESUME=true and run to
completion: the resumed run starts from the crashed durable state and
processes the pages from k on. -/
def resumedScan (threshold : Nat) (pages : List (List String))
    (k : Nat) : List String × Nat :=
  storeFinalize (runPages threshold
    (crashStore (runPages threshold emptyStore (pages.take k)))
    (pages.drop k))

theorem runPages_eq_appendAll (threshold : Nat) :
    ∀ (pages : List (List String)) (st : ShardStore),
      runPages threshold st pages = appendAll threshold st pages.flatten
    := by
  intro pages
  induction pages with
  | nil => intro st; rfl
  | cons p rest ih =>
    intro st
    show runPages threshold (appendAll threshold st p) rest = _
    rw [ih, List.flatten_cons]
    rw [appendAll, appendAll, appendAll, List.foldl_append]

end Scan

/-! ## Claim C3 -/

open Scan in
set_option maxRecDepth 16384 in
/-- Claim C3, counterexample.  The claim says an abrupt termination loses
at most the single in-flight page and that resuming from the checkpoint
reproduces the uninterrupted result.  With the production flush threshold
of 20000 lines, the authority of page 0 is still sitting in the in-memory
buffer when the checkpoint for page 0 is written; killing the process
there and resuming at page 1 silently drops that authority, so the
resumed scan's finalize output differs from the uninterrupted one. -/
theorem C3_counterexample :
    uninterruptedScan FLUSH_THRESHOLD
        [["0x00000000000000000000000000000000000000aa"],
         ["0xff000000000000000000000000000000000000bb"]] =
      (["0x00000000000000000000000000000000000000aa",
        "0xff000000000000000000000000000000000000bb"], 2) ∧
    resumedScan FLUSH_THRESHOLD
        [["0x00000000000000000000000000000000000000aa"],
         ["0xff000000000000000000000000000000000000bb"]] 1 =
      (["0xff000000000000000000000000000000000000bb"], 1) ∧
    resumedScan FLUSH_THRESHOLD
        [["0x00000000000000000000000000000000000000aa"],
         ["0xff000000000000000000000000000000000000bb"]] 1 ≠
      uninterruptedScan FLUSH_THRESHOLD
        [["0x00000000000000000000000000000000000000aa"],
         ["0xff000000000000000000000000000000000000bb"]] := by
  refine ⟨by decide, by decide, by decide⟩

open Scan in
/-- Claim C3, amended: restarting the scan with the resume flag from the
persisted checkpoint and running to completion produces the same final
deduplicated authority address set as one uninterrupted scan over the
same range, provided the in-memory shard buffers were empty (fully
flushed) at the moment of the abrupt termination; in general an abrupt
termination loses, in addition to the in-flight page, every address
buffered since the last flush, up to FLUSH_THRESHOLD lines spanning many
already-checkpointed pages. -/
theorem C3_resume_after_flush (threshold : Nat)
    (pages : List (List String)) (k : Nat)
    (hbuf : (runPages threshold emptyStore (pages.take k)).buffered = []) :
    resumedScan threshold pages k = uninterruptedScan threshold pages := by
  unfold resumedScan uninterruptedScan storeFinalize
  congr 1
  rw [runPages_eq_appendAll, runPages_eq_appendAll, runPages_eq_appendAll,
    appendAll_flushStore, appendAll_flushStore]
  have hbuf' : (appendAll threshold emptyStore
      ((pages.take k).flatten)).buffered = [] := by
    rw [← runPages_eq_appendAll]
    exact hbuf
  have hk : (appendAll threshold emptyStore
      ((pages.take k).flatten)).flushed = (pages.take k).flatten := by
    have h1 := appendAll_flushStore threshold ((pages.take k).flatten)
      emptyStore
    rw [show (flushStore (appendAll threshold emptyStore
        ((pages.take k).flatten))).flushed =
      (appendAll threshold emptyStore ((pages.take k).flatten)).flushed ++
        (appendAll threshold emptyStore
          ((pages.take k).flatten)).buffered from rfl, hbuf'] at h1
    simpa [emptyStore] using h1
  simp only [crashStore, List.append_nil, List.nil_append]
  rw [hk, ← List.flatten_append, List.take_append_drop]
  simp [emptyStore]

open Scan in
/-- Claim C3, witness: with a flush threshold of 1 every append is
flushed immediately, so the buffers are empty at the page-1 checkpoint
and the resumed scan reproduces the uninterrupted output. -/
theorem C3_resume_after_flush_witness :
    resumedScan 1
        [["0x00000000000000000000000000000000000000aa"],
         ["0xff000000000000000000000000000000000000bb"]] 1 =
      uninterruptedScan 1
        [["0x00000000000000000000000000000000000000aa"],
         ["0xff000000000000000000000000000000000000bb"]] :=
  C3_resume_after_flush 1
    [["0x00000000000000000000000000000000000000aa"],
     ["0xff000000000000000000000000000000000000bb"]] 1 (by decide)

namespace Merge

open Eip7702 MarketShare

/-! ## Merging two market-share reports (merge-market-share.ts main)

The merge reads, from each input report, the chain, the totals, the
optional coinbase delegate and the delegate rows (delegate address and
count); it sums counts per normalized delegate address, adds the totals,
and re-ranks with the same comparator as market-share.ts. -/

structure MarketShareJson where
  chain : String
  candidates : Nat
  currentlyDelegated : Nat
  hasExtraBytesCount : Option Nat
  rpcFailures : Option Nat
  coinbaseDelegate : Option String
  delegates : List (String × Nat)
deriving DecidableEq

structure MergedReport where
  chain : String
  candidates : Nat
  currentlyDelegated : Nat
  hasExtraBytesCount : Nat
  rpcFailures : Nat
  coinbaseDelegate : Option String
  delegates : List RankedDelegate
deriving DecidableEq

/-- Lines 53-61: both inputs name a coinbase delegate and the normalized
addresses differ. -/
def coinbaseMismatch (x y : Option String) : Bool :=
  match x, y with
  | some ca, some cb => jsToLower ca != jsToLower cb
  | _, _ => false

/-- Lines 66-71: accumulate row counts per normalized delegate address
into the counts map. -/
def addRows (rows : List (String × Nat)) (m : List (String × Nat)) :
    List (String × Nat) :=
  rows.foldl
    (fun m row => mapSet m (jsToLower row.1)
      ((mapGet m (jsToLower row.1)).getD 0 + row.2)) m

/-- merge-market-share.ts main, lines 44-85 (the pure part: reject
mismatched chains, reject mismatched coinbase delegates, sum counts per
delegate, add the totals, re-rank). -/
def mergeReports (a b : MarketShareJson) :
    Except String MergedReport :=
  if a.chain ≠ b.chain then .error "Chain mismatch"
  else
    let coinbaseDelegate : Option String :=
      match a.coinbaseDelegate with
      | some c => some c
      | none => b.coinbaseDelegate
    if coinbaseMismatch a.coinbaseDelegate b.coinbaseDelegate then
      .error "coinbaseDelegate mismatch"
    else
      let counts := addRows b.delegates (addRows a.delegates [])
      let currentlyDelegated :=
        a.currentlyDelegated + b.currentlyDelegated
      .ok {
        chain := a.chain
        candidates := a.candidates + b.candidates
        currentlyDelegated := currentlyDelegated
        hasExtraBytesCount :=
          a.hasExtraBytesCount.getD 0 + b.hasExtraBytesCount.getD 0
        rpcFailures := a.rpcFailures.getD 0 + b.rpcFailures.getD 0
        coinbaseDelegate := coinbaseDelegate
        delegates := rankRows currentlyDelegated
          (coinbaseDelegate.map jsToLower) 0 (sortByCountDesc counts) }

/-- The count an input report carries for a normalized delegate address:
the sum over its rows with that address. -/
def reportCount (rows : List (String × Nat)) (addr : String) : Nat :=
  ((rows.filter (fun r => jsToLower r.1 == addr)).map (fun r => r.2)).sum

/-- The count the merged report carries for a delegate address. -/
def mergedCountOf (m : MergedReport) (addr : String) : Nat :=
  ((m.delegates.filter (fun e => e.delegate == addr)).map
    (fun e => e.count)).sum

/-- The inputs do not name two different coinbase delegates. -/
def CoinbaseCompatible (a b : MarketShareJson) : Prop :=
  ∀ ca cb, a.coinbaseDelegate = some ca → b.coinbaseDelegate = some cb →
    jsToLower ca = jsToLower cb

theorem mapGet_mapSet (m : List (String × Nat)) (k : String) (v : Nat)
    (k' : String) :
    mapGet (mapSet m k v) k' = if k = k' then some v else mapGet m k' := by
  induction m with
  | nil =>
    by_cases h : k = k' <;> simp [mapSet, mapGet, h]
  | cons p rest ih =>
    by_cases hp : p.1 == k
    · have hp' : p.1 = k := by simpa using hp
      by_cases h : k = k'
      · subst h
        simp [mapSet, mapGet, hp]
      · have hpk' : (p.1 == k') = false := by
          simp only [beq_eq_false_iff_ne]
          rw [hp']
          exact h
        have hkk' : (k == k') = false := by
          simp only [beq_eq_false_iff_ne]
          exact h
        simp [mapSet, mapGet, hp, h, hpk', hkk']
    · simp only [mapSet, hp, Bool.false_eq_true, if_false]
      by_cases hpk' : p.1 == k'
      · have h : ¬ k = k' := by
          intro hc
          subst hc
          exact absurd hpk' hp
        simp [mapGet, hpk', h]
      · simp only [mapGet, List.find?_cons, hpk']
        rw [show mapGet (mapSet rest k v) k' =
          (List.find? (fun p => p.1 == k') (mapSet rest k v)).map (·.2)
          from rfl] at ih
        rw [ih]
        by_cases h : k = k' <;> simp [h, mapGet]

theorem addRows_getD (addr : String) :
    ∀ (rows : List (String × Nat)) (m : List (String × Nat)),
      (mapGet (addRows rows m) addr).getD 0 =
        (mapGet m addr).getD 0 + reportCount rows addr := by
  intro rows
  induction rows with
  | nil => intro m; simp [addRows, reportCount]
  | cons row rest ih =>
    intro m
    show (mapGet (addRows rest (mapSet m (jsToLower row.1)
      ((mapGet m (jsToLower row.1)).getD 0 + row.2))) addr).getD 0 = _
    rw [ih]
    rw [mapGet_mapSet]
    by_cases h : jsToLower row.1 = addr
    · have hb : (jsToLower row.1 == addr) = true := by simpa using h
      rw [if_pos h]
      simp only [reportCount, List.filter_cons, hb, if_true,
        List.map_cons, List.sum_cons, Option.getD_some]
      rw [← h]
      omega
    · have hb : (jsToLower row.1 == addr) = false := by simpa using h
      rw [if_neg h]
      simp only [reportCount, List.filter_cons, hb,
        Bool.false_eq_true, if_false]

theorem nodup_keys_addRows :
    ∀ (rows : List (String × Nat)) (m : List (String × Nat)),
      (m.map (·.1)).Nodup → ((addRows rows m).map (·.1)).Nodup := by
  intro rows
  induction rows with
  | nil => intro m h; exact h
  | cons row rest ih =>
    intro m h
    exact ih _ (nodup_keys_mapSet m (jsToLower row.1) _ h)

theorem sum_filter_eq_getD (addr : String) :
    ∀ m : List (String × Nat), (m.map (·.1)).Nodup →
      ((m.filter (fun r => r.1 == addr)).map (fun r => r.2)).sum =
        (mapGet m addr).getD 0 := by
  intro m
  induction m with
  | nil => intro _; simp [mapGet]
  | cons p rest ih =>
    intro hnd
    simp only [List.map_cons, List.nodup_cons] at hnd
    by_cases hp : p.1 == addr
    · have hp' : p.1 = addr := by simpa using hp
      have hrest : rest.filter (fun r => r.1 == addr) = [] := by
        rw [List.filter_eq_nil_iff]
        intro r hr hc
        have : r.1 = addr := by simpa using hc
        exact hnd.1 (by
          rw [hp', ← this]
          exact List.mem_map_of_mem _ hr)
      simp [List.filter_cons, hp, hrest, mapGet, List.find?_cons]
    · simp only [List.filter_cons, hp, Bool.false_eq_true, if_false]
      rw [ih hnd.2]
      simp [mapGet, List.find?_cons, hp]

theorem rankRows_filter_delegate (cd : Nat) (cb : Option String)
    (addr : String) :
    ∀ (i : Nat) (l : List (String × Nat)),
      ((rankRows cd cb i l).filter (fun e => e.delegate == addr)).map
          (fun e => e.count) =
        (l.filter (fun p => p.1 == addr)).map (fun p => p.2) := by
  intro i l
  induction l generalizing i with
  | nil => rfl
  | cons p rest ih =>
    simp only [rankRows, List.filter_cons]
    by_cases hp : p.1 == addr
    · simp only [hp, if_true, List.map_cons, ih]
    · simp only [hp, Bool.false_eq_true, if_false, ih]

end Merge

/-! ## Claim C9 -/

open Eip7702 MarketShare Merge in
/-- Claim C9, counterexample.  The claim says the merge throws exactly
when the chain fields differ; two reports about the same chain whose
coinbaseDelegate fields name different addresses also make the merge
throw, so equal chains do not guarantee a merged report. -/
theorem C9_counterexample :
    (MarketShareJson.mk "base" 1 1 none none (some "0xaa")
        [("0xd1", 1)]).chain =
      (MarketShareJson.mk "base" 1 1 none none (some "0xbb")
        [("0xd2", 1)]).chain ∧
    mergeReports
        (MarketShareJson.mk "base" 1 1 none none (some "0xaa")
          [("0xd1", 1)])
        (MarketShareJson.mk "base" 1 1 none none (some "0xbb")
          [("0xd2", 1)]) =
      .error "coinbaseDelegate mismatch" := by
  constructor
  · rfl
  · rfl

open Eip7702 MarketShare Merge in
/-- Claim C9, amended: for every two input reports whose chain fields are
equal and whose coinbaseDelegate fields do not name two different
addresses, the merge succeeds and the merged report's count for each
delegate address equals the sum of the two inputs' counts for that
address, its currentlyDelegated total equals the sum of the inputs'
totals, and its candidates total the sum of the inputs' candidates; when
the chain fields differ the merge throws an error and produces no
report. -/
theorem C9_merge_reports (a b : MarketShareJson) :
    (a.chain ≠ b.chain → mergeReports a b = .error "Chain mismatch") ∧
    (a.chain = b.chain → CoinbaseCompatible a b →
      ∃ m, mergeReports a b = .ok m ∧
        m.currentlyDelegated = a.currentlyDelegated + b.currentlyDelegated ∧
        m.candidates = a.candidates + b.candidates ∧
        ∀ addr, mergedCountOf m addr =
          reportCount a.delegates addr + reportCount b.delegates addr) := by
  constructor
  · intro hne
    rw [mergeReports, if_pos hne]
  · intro hchain hcb
    have hmis : coinbaseMismatch a.coinbaseDelegate b.coinbaseDelegate =
        false := by
      unfold coinbaseMismatch
      cases hca : a.coinbaseDelegate with
      | none => rfl
      | some ca =>
        cases hcbv : b.coinbaseDelegate with
        | none => rfl
        | some cb =>
          have := hcb ca cb hca hcbv
          simp [this]
    rw [mergeReports, if_neg (by simp [hchain]), hmis]
    simp only [Bool.false_eq_true, if_false]
    refine ⟨_, rfl, rfl, rfl, ?_⟩
    intro addr
    have hnd : ((addRows b.delegates (addRows a.delegates [])).map
        (·.1)).Nodup :=
      nodup_keys_addRows b.delegates _
        (nodup_keys_addRows a.delegates [] (by simp))
    rw [mergedCountOf]
    dsimp only
    rw [rankRows_filter_delegate]
    have hperm : ((sortByCountDesc (addRows b.delegates
        (addRows a.delegates []))).filter
          (fun p => p.1 == addr)).Perm
        ((addRows b.delegates (addRows a.delegates [])).filter
          (fun p => p.1 == addr)) :=
      (List.perm_insertionSort countDescRel _).filter _
    rw [(hperm.map (fun p => p.2)).sum_eq]
    rw [sum_filter_eq_getD addr _ hnd]
    rw [addRows_getD, addRows_getD]
    simp [mapGet]

open Eip7702 MarketShare Merge in
/-- Claim C9, witness: the spec's example scenario, merging a report with
delegateX count 3 and total 3 into one with delegateX count 2 and
delegateY count 5 and total 7, yielding counts 5 and 5 and total 10. -/
theorem C9_merge_reports_witness :
    ∃ m, mergeReports
        (MarketShareJson.mk "base" 3 3 none none none [("0xdx", 3)])
        (MarketShareJson.mk "base" 7 7 none none none
          [("0xdx", 2), ("0xdy", 5)]) =
      .ok m ∧
      m.currentlyDelegated = 10 ∧
      mergedCountOf m "0xdx" = 5 ∧ mergedCountOf m "0xdy" = 5 := by
  obtain ⟨m, hm, hcd, _, hcount⟩ :=
    (C9_merge_reports
      (MarketShareJson.mk "base" 3 3 none none none [("0xdx", 3)])
      (MarketShareJson.mk "base" 7 7 none none none
        [("0xdx", 2), ("0xdy", 5)])).2 rfl
      (fun ca cb h _ => nomatch h)
  refine ⟨m, hm, by rw [hcd]; rfl, ?_, ?_⟩
  · rw [hcount "0xdx"]
    decide
  · rw [hcount "0xdy"]
    decide

namespace Auth

open Eip7702

/-! ## eip7702.ts: authority recovery from an authorization tuple

Embedding of src/eip7702.ts.  The heterogeneous JavaScript inputs
(string | number | bigint | anything) become the inductive JsValue; a
JavaScript number is either a finite integer-valued float, a finite
non-integer, or NaN/Infinity.  Hex strings are turned into byte lists at
the getBytes boundary; the cryptographic primitives keccak256 and
recoverAddress, and the checksumming getAddress, are abstract function
parameters since their code is not part of this repository. -/

/-- A JavaScript number as far as parseUintBigint can observe it:
Number.isFinite, Number.isInteger and the integer value. -/
inductive JsNumber where
  | int (i : Int)
  | nonIntFinite (repr : String)
  | nonFinite (repr : String)
deriving DecidableEq

/-- A JavaScript value of type string | number | bigint (or anything
else, for the unknown-typed parseUintBigint argument). -/
inductive JsValue where
  | bigint (i : Int)
  | num (x : JsNumber)
  | str (s : String)
  | other (repr : String)
deriving DecidableEq

/-- JavaScript String(value) as used in the error messages; an
integer-valued number is rendered as its decimal digits. -/
def jsValueToString : JsValue → String
  | .bigint i => toString i
  | .num (.int i) => toString i
  | .num (.nonIntFinite r) => r
  | .num (.nonFinite r) => r
  | .str s => s
  | .other r => r

/-- The error message template of eip7702.ts. -/
def invalidMsg (field : String) (value : JsValue) : String :=
  "Invalid " ++ field ++ " in authorization: " ++ jsValueToString value

/-- Value of one hexadecimal digit, case-insensitive. -/
def hexDigitVal (c : Char) : Option Nat :=
  if '0' ≤ c ∧ c ≤ '9' then some (c.toNat - '0'.toNat)
  else if 'a' ≤ c ∧ c ≤ 'f' then some (c.toNat - 'a'.toNat + 10)
  else if 'A' ≤ c ∧ c ≤ 'F' then some (c.toNat - 'A'.toNat + 10)
  else none

def parseRadixAux (radix : Nat) (acc : Nat) : List Char → Option Nat
  | [] => some acc
  | c :: cs =>
    match hexDigitVal c with
    | some d => if d < radix then parseRadixAux radix (acc * radix + d) cs
                else none
    | none => none

/-- A nonempty digit string in the given radix (2, 8, 10 or 16), as the
BigIntLiteral grammar reads one. -/
def parseRadix (radix : Nat) (cs : List Char) : Option Nat :=
  match cs with
  | [] => none
  | _ => parseRadixAux radix 0 cs

/-- Optional sign followed by decimal digits (the SignedInteger
production of StringToBigInt). -/
def parseDecSigned (cs : List Char) : Option Int :=
  match cs with
  | '+' :: rest => (parseRadix 10 rest).map (Int.ofNat)
  | '-' :: rest => (parseRadix 10 rest).map (fun n => -(Int.ofNat n))
  | _ => (parseRadix 10 cs).map (Int.ofNat)

/-- JavaScript BigInt(s) on an already-trimmed string (StringToBigInt):
0x/0X, 0o/0O and 0b/0B unsigned literals, or an optionally signed
decimal literal.  Any other shape throws, modelled as none.  The empty
string (which BigInt maps to 0) never reaches this function because
parseUintBigint rejects it first. -/
def jsStringToBigInt (s : String) : Option Int :=
  match s.data with
  | '0' :: c :: rest =>
    if c = 'x' ∨ c = 'X' then (parseRadix 16 rest).map (Int.ofNat)
    else if c = 'o' ∨ c = 'O' then (parseRadix 8 rest).map (Int.ofNat)
    else if c = 'b' ∨ c = 'B' then (parseRadix 2 rest).map (Int.ofNat)
    else parseDecSigned s.data
  | _ => parseDecSigned s.data

/-- eip7702.ts parseUintBigint: coerce a bigint, number or string to a
non-negative bigint, or throw an error naming the field. -/
def parseUintBigint (value : JsValue) (field : String) :
    Except String Int :=
  match value with
  | .bigint i => if i < 0 then .error (invalidMsg field value) else .ok i
  | .num (.int i) =>
    if i < 0 then .error (invalidMsg field value) else .ok i
  | .num (.nonIntFinite _) => .error (invalidMsg field value)
  | .num (.nonFinite _) => .error (invalidMsg field value)
  | .str v =>
    let s := jsTrim v
    if s.data.isEmpty then .error (invalidMsg field value)
    else
      match jsStringToBigInt s with
      | some n =>
        if n < 0 then .error (invalidMsg field value) else .ok n
      | none => .error (invalidMsg field value)
  | .other _ => .error (invalidMsg field value)

/-- eip7702.ts isHexAddress: the regular expression
0x followed by exactly 40 case-insensitive hex digits. -/
def isHexAddress (s : String) : Bool :=
  jsStartsWith s "0x" && s.data.length == 42 &&
    (s.data.drop 2).all (fun c => c ∈ hexAnyChars)

/-- The regular expression of normalizeHex32: 0x followed by 1 to 64
case-insensitive hex digits. -/
def isHex1to64 (s : String) : Bool :=
  jsStartsWith s "0x" && !(s.data.drop 2).isEmpty &&
    decide ((s.data.drop 2).length ≤ 64) &&
    (s.data.drop 2).all (fun c => c ∈ hexAnyChars)

/-- JavaScript padStart(64, "0"). -/
def padStart64 (cs : List Char) : List Char :=
  List.replicate (64 - cs.length) '0' ++ cs

/-- eip7702.ts normalizeHex32: trim, check 0x plus 1..64 hex digits,
lower-case and left-pad the digits to 64. -/
def normalizeHex32 (value : String) (field : String) :
    Except String String :=
  let s := jsTrim value
  if isHex1to64 s then
    .ok ("0x" ++ String.mk (padStart64
      ((jsToLower (String.mk (s.data.drop 2))).data)))
  else .error ("Invalid " ++ field ++ " in authorization: " ++ value)

/-- Minimal big-endian bytes of a natural number (fuel-based; the first
argument only bounds the recursion depth).  natToBE 0 = []. -/
def natToBEAux : Nat → Nat → List Nat
  | 0, _ => []
  | _ + 1, 0 => []
  | fuel + 1, n + 1 =>
    natToBEAux fuel ((n + 1) / 256) ++ [(n + 1) % 256]

def natToBE (n : Nat) : List Nat := natToBEAux n n

/-- Bytes of ethers toBeHex(n) with no width: minimal big-endian,
except toBeHex(0) = 0x00 (a single zero byte). -/
def toBeHexBytes (n : Nat) : List Nat :=
  if n = 0 then [0] else natToBE n

/-- Bytes of a 0x-prefixed even-length hex string (getBytes). -/
def hexPairBytes : List Char → List Nat
  | c1 :: c2 :: rest =>
    (((hexDigitVal c1).getD 0) * 16 + (hexDigitVal c2).getD 0)
      :: hexPairBytes rest
  | _ => []

def hexStrBytes (s : String) : List Nat := hexPairBytes (s.data.drop 2)

/-- Numeric value of a 0x-prefixed hex string (how Signature.from reads
the r and s words). -/
def hexValAux (acc : Nat) : List Char → Nat
  | [] => acc
  | c :: cs => hexValAux (acc * 16 + (hexDigitVal c).getD 0) cs

def hexStrVal (s : String) : Nat := hexValAux 0 (s.data.drop 2)

/-- RLP encoding of one byte-string item (ethers encodeRlp on a
DataHexString). -/
def rlpEncodeBytes (b : List Nat) : List Nat :=
  match b with
  | [x] => if x < 128 then [x] else [129, x]
  | _ =>
    if b.length ≤ 55 then (128 + b.length) :: b
    else (183 + (natToBE b.length).length) :: (natToBE b.length ++ b)

/-- RLP list framing around an already-encoded payload. -/
def rlpEncodeListPayload (payload : List Nat) : List Nat :=
  if payload.length ≤ 55 then (192 + payload.length) :: payload
  else (247 + (natToBE payload.length).length)
    :: (natToBE payload.length ++ payload)

structure HypersyncAuthorization where
  chainId : JsValue
  address : String
  nonce : JsValue
  yParity : JsValue
  r : String
  s : String

/-- eip7702.ts recoverAuthorityFromAuthorization, parameterized over the
ethers primitives keccak256 (bytes to bytes), recoverAddress (digest
bytes and the numeric r, s, yParity of the signature, to an address
string) and getAddress (checksummed rendering of a validated address).
RLP runs directly on bytes: every DataHexString argument of the real
encodeRlp stands for its byte content. -/
def recoverAuthorityFromAuthorization
    (keccak256 : List Nat → List Nat)
    (recoverAddress : List Nat → Nat → Nat → Nat → String)
    (getAddress : String → String)
    (auth : HypersyncAuthorization) : Except String String :=
  if isHexAddress auth.address then
    match parseUintBigint auth.chainId "chainId" with
    | .error e => .error e
    | .ok chainId =>
      match parseUintBigint auth.nonce "nonce" with
      | .error e => .error e
      | .ok nonce =>
        match parseUintBigint auth.yParity "yParity" with
        | .error e => .error e
        | .ok yParityBig =>
          if yParityBig ≠ 0 ∧ yParityBig ≠ 1 then
            .error (invalidMsg "yParity" auth.yParity)
          else
            match normalizeHex32 auth.r "r" with
            | .error e => .error e
            | .ok r =>
              match normalizeHex32 auth.s "s" with
              | .error e => .error e
              | .ok s =>
                let chainIdRlp : List Nat :=
                  if chainId = 0 then [] else toBeHexBytes chainId.toNat
                let nonceRlp : List Nat :=
                  if nonce = 0 then [] else toBeHexBytes nonce.toNat
                let rlp := rlpEncodeListPayload
                  (rlpEncodeBytes chainIdRlp ++
                    rlpEncodeBytes (hexStrBytes (getAddress auth.address))
                    ++ rlpEncodeBytes nonceRlp)
                let digest := keccak256 (5 :: rlp)
                .ok (jsToLower (recoverAddress digest
                  (hexStrVal r) (hexStrVal s) yParityBig.toNat))
  else .error ("Invalid delegate address in authorization: "
    ++ auth.address)

end Auth

namespace Auth

open Eip7702

/-! ## Spec-side definitions for claims C1 and C2 -/

/-- Spec-side: the minimal big-endian byte string of an integer, with 0
encoding as the empty byte string, as the spec words it. -/
def specMinimalBE (n : Nat) : List Nat := natToBE n

/-- Spec-side: the keccak preimage 0x05 followed by
rlp([chainId, delegateAddress, nonce]) with minimal big-endian integer
encoding, as claim C1 words it.  The address contributes its 20 bytes
as written in the authorization. -/
def specDigestPreimage (chainId : Nat) (address : String) (nonce : Nat) :
    List Nat :=
  5 :: rlpEncodeListPayload
    (rlpEncodeBytes (specMinimalBE chainId)
      ++ rlpEncodeBytes (hexStrBytes address)
      ++ rlpEncodeBytes (specMinimalBE nonce))

/-- Spec-side: coercion of a heterogeneous input to a non-negative
integer - a non-negative bigint or finite integral number, or a string
whose trimmed form is a nonempty BigInt literal with non-negative
value. -/
def coerceUint (v : JsValue) : Option Int :=
  match v with
  | .bigint i => if 0 ≤ i then some i else none
  | .num (.int i) => if 0 ≤ i then some i else none
  | .num _ => none
  | .str s =>
    let t := jsTrim s
    if t.data.isEmpty then none
    else
      match jsStringToBigInt t with
      | some n => if 0 ≤ n then some n else none
      | none => none
  | .other _ => none

/-- Spec-side: which fields of an authorization are invalid, by the
field name appearing in the thrown message. -/
def fieldBad (auth : HypersyncAuthorization) : String → Bool
  | "delegate address" => !isHexAddress auth.address
  | "chainId" => (coerceUint auth.chainId).isNone
  | "nonce" => (coerceUint auth.nonce).isNone
  | "yParity" => !(coerceUint auth.yParity == some 0
      || coerceUint auth.yParity == some 1)
  | "r" => !isHex1to64 (jsTrim auth.r)
  | "s" => !isHex1to64 (jsTrim auth.s)
  | _ => false

def decDigitChars : List Char := "0123456789".data

/-- Spec-side, from claim C2's words: a "decimal string" (optionally
signed decimal digits). -/
def specDecimalString (s : String) : Bool :=
  let body := match s.data with
    | '+' :: rest => rest
    | '-' :: rest => rest
    | rest => rest
  !body.isEmpty && body.all (fun c => c ∈ decDigitChars)

/-- Spec-side, from claim C2's words: a "0x-hex string". -/
def specHexString (s : String) : Bool :=
  jsStartsWith s "0x" && !(s.data.drop 2).isEmpty &&
    (s.data.drop 2).all (fun c => c ∈ hexAnyChars)

/-- Spec-side, from claim C2's words: the string forms the claim says
parseUintBigint accepts. -/
def specDecimalOrHexString (s : String) : Bool :=
  specDecimalString s || specHexString s

/-! ## Bridging lemmas -/

theorem natToBE_zero : natToBE 0 = [] := rfl

theorem chainIdRlp_eq_specMinimalBE (c : Int) (hc : 0 ≤ c) :
    (if c = 0 then ([] : List Nat) else toBeHexBytes c.toNat) =
      specMinimalBE c.toNat := by
  by_cases h : c = 0
  · rw [if_pos h, h]
    rfl
  · rw [if_neg h, toBeHexBytes, if_neg, specMinimalBE]
    omega

theorem parseUint_ok_iff (v : JsValue) (f : String) (n : Int) :
    parseUintBigint v f = .ok n ↔ coerceUint v = some n := by
  rcases v with i | x | s | r
  · simp only [parseUintBigint, coerceUint]
    by_cases h : i < 0
    · rw [if_pos h, if_neg (by omega)]
      simp
    · rw [if_neg h, if_pos (by omega)]
      simp
  · rcases x with i | r | r
    · simp only [parseUintBigint, coerceUint]
      by_cases h : i < 0
      · rw [if_pos h, if_neg (by omega)]
        simp
      · rw [if_neg h, if_pos (by omega)]
        simp
    · simp [parseUintBigint, coerceUint]
    · simp [parseUintBigint, coerceUint]
  · simp only [parseUintBigint, coerceUint]
    by_cases he : (jsTrim s).data.isEmpty
    · simp [he]
    · simp only [Bool.not_eq_true] at he
      rw [if_neg (by simp [he]), if_neg (by simp [he])]
      rcases hj : jsStringToBigInt (jsTrim s) with _ | m
      · simp
      · dsimp only
        by_cases h : m < 0
        · rw [if_pos h, if_neg (by omega)]
          simp
        · rw [if_neg h, if_pos (by omega)]
          simp
  · simp [parseUintBigint, coerceUint]

theorem parseUint_err_inv (v : JsValue) (f : String) (e : String)
    (h : parseUintBigint v f = .error e) :
    coerceUint v = none ∧ e = invalidMsg f v := by
  rcases v with i | x | s | r
  · simp only [parseUintBigint] at h
    by_cases hi : i < 0
    · rw [if_pos hi] at h
      cases h
      exact ⟨by simp [coerceUint, if_neg (by omega : ¬ (0 : Int) ≤ i)],
        rfl⟩
    · rw [if_neg hi] at h
      cases h
  · rcases x with i | r | r
    · simp only [parseUintBigint] at h
      by_cases hi : i < 0
      · rw [if_pos hi] at h
        cases h
        exact ⟨by simp [coerceUint, if_neg (by omega : ¬ (0 : Int) ≤ i)],
          rfl⟩
      · rw [if_neg hi] at h
        cases h
    · simp only [parseUintBigint] at h
      cases h
      exact ⟨rfl, rfl⟩
    · simp only [parseUintBigint] at h
      cases h
      exact ⟨rfl, rfl⟩
  · simp only [parseUintBigint] at h
    by_cases he : (jsTrim s).data.isEmpty
    · rw [if_pos (by simp [he])] at h
      cases h
      exact ⟨by simp [coerceUint, he], rfl⟩
    · simp only [Bool.not_eq_true] at he
      rw [if_neg (by simp [he])] at h
      rcases hj : jsStringToBigInt (jsTrim s) with _ | m
      · rw [hj] at h
        cases h
        exact ⟨by simp [coerceUint, he, hj], rfl⟩
      · rw [hj] at h
        dsimp only at h
        by_cases hm : m < 0
        · rw [if_pos hm] at h
          cases h
          refine ⟨?_, rfl⟩
          simp only [coerceUint, he, hj]
          rw [if_neg (by simp [he]), if_neg (by omega)]
        · rw [if_neg hm] at h
          cases h
  · simp only [parseUintBigint] at h
    cases h
    exact ⟨rfl, rfl⟩

theorem coerce_none_err (v : JsValue) (f : String)
    (h : coerceUint v = none) :
    parseUintBigint v f = .error (invalidMsg f v) := by
  rcases hp : parseUintBigint v f with e | n
  · rw [(parseUint_err_inv v f e hp).2]
  · rw [(parseUint_ok_iff v f n).mp hp] at h
    cases h

theorem coerce_some_nonneg (v : JsValue) (n : Int)
    (h : coerceUint v = some n) : 0 ≤ n := by
  rcases v with i | x | s | r
  · simp only [coerceUint] at h
    by_cases hi : (0 : Int) ≤ i
    · rw [if_pos hi] at h
      cases h
      exact hi
    · rw [if_neg hi] at h
      cases h
  · rcases x with i | r | r
    · simp only [coerceUint] at h
      by_cases hi : (0 : Int) ≤ i
      · rw [if_pos hi] at h
        cases h
        exact hi
      · rw [if_neg hi] at h
        cases h
    · cases h
    · cases h
  · simp only [coerceUint] at h
    by_cases he : (jsTrim s).data.isEmpty
    · rw [if_pos (by simp [he])] at h
      cases h
    · rw [if_neg (by simp [he])] at h
      rcases hj : jsStringToBigInt (jsTrim s) with _ | m
      · rw [hj] at h
        cases h
      · rw [hj] at h
        dsimp only at h
        by_cases hm : (0 : Int) ≤ m
        · rw [if_pos hm] at h
          cases h
          exact hm
        · rw [if_neg hm] at h
          cases h
  · cases h

end Auth

namespace Auth

open Eip7702

theorem normalizeHex32_eq_ok (val f : String)
    (h : isHex1to64 (jsTrim val) = true) :
    normalizeHex32 val f = .ok ("0x" ++ String.mk (padStart64
      (((jsTrim val).data.drop 2).map Char.toLower))) := by
  simp only [normalizeHex32, h, if_true]
  rfl

theorem normalizeHex32_eq_err (val f : String)
    (h : isHex1to64 (jsTrim val) = false) :
    normalizeHex32 val f =
      .error ("Invalid " ++ f ++ " in authorization: " ++ val) := by
  simp only [normalizeHex32, h, Bool.false_eq_true, if_false]

theorem hexDigitVal_toLower_mem :
    ∀ c ∈ hexAnyChars, hexDigitVal (Char.toLower c) = hexDigitVal c := by
  decide

theorem toLower_mem_hexLower :
    ∀ c ∈ hexAnyChars, Char.toLower c ∈ hexLowerChars := by
  decide

theorem hexValAux_map_toLower (cs : List Char)
    (h : cs.all (fun c => c ∈ hexAnyChars) = true) :
    ∀ acc, hexValAux acc (cs.map Char.toLower) = hexValAux acc cs := by
  induction cs with
  | nil => intro acc; rfl
  | cons c rest ih =>
    simp only [List.all_cons, Bool.and_eq_true] at h
    intro acc
    simp only [List.map_cons, hexValAux]
    rw [hexDigitVal_toLower_mem c (of_decide_eq_true h.1)]
    exact ih h.2 _

theorem hexValAux_zeros (k : Nat) (cs : List Char) :
    hexValAux 0 (List.replicate k '0' ++ cs) = hexValAux 0 cs := by
  induction k with
  | zero => rfl
  | succ k ih =>
    simpa [List.replicate_succ, hexValAux, hexDigitVal] using ih

theorem hexStrVal_normalizeHex32 (val f rN : String)
    (h : normalizeHex32 val f = .ok rN) :
    hexStrVal rN = hexStrVal (jsTrim val) := by
  by_cases hh : isHex1to64 (jsTrim val) = true
  · rw [normalizeHex32_eq_ok val f hh] at h
    cases h
    have hall : ((jsTrim val).data.drop 2).all
        (fun c => c ∈ hexAnyChars) = true := by
      simp only [isHex1to64, Bool.and_eq_true] at hh
      exact hh.2
    have hdata : ("0x" ++ String.mk (padStart64
        (((jsTrim val).data.drop 2).map Char.toLower))).data =
        '0' :: 'x' :: padStart64
          (((jsTrim val).data.drop 2).map Char.toLower) := rfl
    show hexValAux 0 _ = hexValAux 0 _
    rw [hdata]
    show hexValAux 0 (padStart64
      (((jsTrim val).data.drop 2).map Char.toLower)) = _
    rw [padStart64, hexValAux_zeros,
      hexValAux_map_toLower _ hall]
  · rw [normalizeHex32_eq_err val f (by simpa using hh)] at h
    cases h

theorem padStart64_length (l : List Char) (h : l.length ≤ 64) :
    (padStart64 l).length = 64 := by
  simp only [padStart64, List.length_append, List.length_replicate]
  omega

theorem padStart64_all_lower (l : List Char)
    (h : l.all (fun c => c ∈ hexAnyChars) = true) :
    (padStart64 (l.map Char.toLower)).all
      (fun c => c ∈ hexLowerChars) = true := by
  simp only [padStart64, List.all_append, Bool.and_eq_true, List.all_map]
  refine ⟨?_, ?_⟩
  · simp only [List.all_eq_true]
    intro c hc
    rw [List.eq_of_mem_replicate hc]
    decide
  · simp only [List.all_eq_true] at h ⊢
    intro c hc
    exact decide_eq_true
      (toLower_mem_hexLower c (of_decide_eq_true (h c hc)))

end Auth

namespace Auth

open Eip7702

/-- Inversion of a successful recoverAuthorityFromAuthorization run:
every validation step passed and the result is the lower-cased output
of recoverAddress on the keccak digest of the RLP payload the code
builds. -/
theorem recover_ok_inversion
    (K : List Nat → List Nat) (R : List Nat → Nat → Nat → Nat → String)
    (G : String → String) (auth : HypersyncAuthorization) (res : String)
    (hok : recoverAuthorityFromAuthorization K R G auth = .ok res) :
    isHexAddress auth.address = true ∧
    ∃ cid nce yp rN sN,
      parseUintBigint auth.chainId "chainId" = .ok cid ∧
      parseUintBigint auth.nonce "nonce" = .ok nce ∧
      parseUintBigint auth.yParity "yParity" = .ok yp ∧
      (yp = 0 ∨ yp = 1) ∧
      normalizeHex32 auth.r "r" = .ok rN ∧
      normalizeHex32 auth.s "s" = .ok sN ∧
      res = jsToLower (R (K (5 :: rlpEncodeListPayload
          (rlpEncodeBytes
              (if cid = 0 then [] else toBeHexBytes cid.toNat)
            ++ rlpEncodeBytes (hexStrBytes (G auth.address))
            ++ rlpEncodeBytes
              (if nce = 0 then [] else toBeHexBytes nce.toNat))))
        (hexStrVal rN) (hexStrVal sN) yp.toNat) := by
  rw [recoverAuthorityFromAuthorization] at hok
  by_cases ha : isHexAddress auth.address = true
  · rw [if_pos ha] at hok
    refine ⟨ha, ?_⟩
    rcases hc : parseUintBigint auth.chainId "chainId" with e | cid
    · rw [hc] at hok
      simp at hok
    rw [hc] at hok
    dsimp only at hok
    rcases hn : parseUintBigint auth.nonce "nonce" with e | nce
    · rw [hn] at hok
      simp at hok
    rw [hn] at hok
    dsimp only at hok
    rcases hy : parseUintBigint auth.yParity "yParity" with e | yp
    · rw [hy] at hok
      simp at hok
    rw [hy] at hok
    dsimp only at hok
    by_cases hyp : yp ≠ 0 ∧ yp ≠ 1
    · rw [if_pos hyp] at hok
      cases hok
    rw [if_neg hyp] at hok
    rcases hr : normalizeHex32 auth.r "r" with e | rN
    · rw [hr] at hok
      simp at hok
    rw [hr] at hok
    dsimp only at hok
    rcases hs : normalizeHex32 auth.s "s" with e | sN
    · rw [hs] at hok
      simp at hok
    rw [hs] at hok
    dsimp only at hok
    refine ⟨cid, nce, yp, rN, sN, rfl, rfl, rfl, by omega, rfl, rfl, ?_⟩
    injection hok with h
    exact h.symm
  · rw [if_neg ha] at hok
    cases hok

/-- Inversion of a thrown error: the message is the one the first
failing validation step produces. -/
theorem recover_err_inversion
    (K : List Nat → List Nat) (R : List Nat → Nat → Nat → Nat → String)
    (G : String → String) (auth : HypersyncAuthorization) (e : String)
    (h : recoverAuthorityFromAuthorization K R G auth = .error e) :
    (isHexAddress auth.address = false ∧
      e = "Invalid delegate address in authorization: " ++ auth.address)
    ∨ (coerceUint auth.chainId = none ∧
        e = invalidMsg "chainId" auth.chainId)
    ∨ (coerceUint auth.nonce = none ∧
        e = invalidMsg "nonce" auth.nonce)
    ∨ ((coerceUint auth.yParity = none ∨
          ∃ yp, coerceUint auth.yParity = some yp ∧ yp ≠ 0 ∧ yp ≠ 1) ∧
        e = invalidMsg "yParity" auth.yParity)
    ∨ (isHex1to64 (jsTrim auth.r) = false ∧
        e = "Invalid r in authorization: " ++ auth.r)
    ∨ (isHex1to64 (jsTrim auth.s) = false ∧
        e = "Invalid s in authorization: " ++ auth.s) := by
  rw [recoverAuthorityFromAuthorization] at h
  by_cases ha : isHexAddress auth.address = true
  · rw [if_pos ha] at h
    rcases hc : parseUintBigint auth.chainId "chainId" with e1 | cid
    · rw [hc] at h
      dsimp only at h
      injection h with h
      obtain ⟨h1, h2⟩ := parseUint_err_inv _ _ _ hc
      exact Or.inr (Or.inl ⟨h1, h.symm.trans h2⟩)
    rw [hc] at h
    dsimp only at h
    rcases hn : parseUintBigint auth.nonce "nonce" with e1 | nce
    · rw [hn] at h
      dsimp only at h
      injection h with h
      obtain ⟨h1, h2⟩ := parseUint_err_inv _ _ _ hn
      exact Or.inr (Or.inr (Or.inl ⟨h1, h.symm.trans h2⟩))
    rw [hn] at h
    dsimp only at h
    rcases hy : parseUintBigint auth.yParity "yParity" with e1 | yp
    · rw [hy] at h
      dsimp only at h
      injection h with h
      obtain ⟨h1, h2⟩ := parseUint_err_inv _ _ _ hy
      exact Or.inr (Or.inr (Or.inr (Or.inl
        ⟨Or.inl h1, h.symm.trans h2⟩)))
    rw [hy] at h
    dsimp only at h
    by_cases hyp : yp ≠ 0 ∧ yp ≠ 1
    · rw [if_pos hyp] at h
      injection h with h
      exact Or.inr (Or.inr (Or.inr (Or.inl
        ⟨Or.inr ⟨yp, (parseUint_ok_iff _ _ _).mp hy, hyp⟩, h.symm⟩)))
    rw [if_neg hyp] at h
    rcases hr : normalizeHex32 auth.r "r" with e1 | rN
    · rw [hr] at h
      dsimp only at h
      injection h with h
      by_cases hhr : isHex1to64 (jsTrim auth.r) = true
      · rw [normalizeHex32_eq_ok _ _ hhr] at hr
        cases hr
      · rw [normalizeHex32_eq_err _ _ (by simpa using hhr)] at hr
        injection hr with hr
        exact Or.inr (Or.inr (Or.inr (Or.inr (Or.inl
          ⟨by simpa using hhr, h.symm.trans hr.symm⟩))))
    rw [hr] at h
    dsimp only at h
    rcases hs : normalizeHex32 auth.s "s" with e1 | sN
    · rw [hs] at h
      dsimp only at h
      injection h with h
      by_cases hhs : isHex1to64 (jsTrim auth.s) = true
      · rw [normalizeHex32_eq_ok _ _ hhs] at hs
        cases hs
      · rw [normalizeHex32_eq_err _ _ (by simpa using hhs)] at hs
        injection hs with hs
        exact Or.inr (Or.inr (Or.inr (Or.inr (Or.inr
          ⟨by simpa using hhs, h.symm.trans hs.symm⟩))))
    rw [hs] at h
    dsimp only at h
    cases h
  · rw [if_neg ha] at h
    injection h with h
    exact Or.inl ⟨by simpa using ha, h.symm⟩

/-- When every validation step passes, the function returns some
address. -/
theorem recover_ok_construction
    (K : List Nat → List Nat) (R : List Nat → Nat → Nat → Nat → String)
    (G : String → String) (auth : HypersyncAuthorization)
    (ha : isHexAddress auth.address = true)
    (cid nce yp : Int) (rN sN : String)
    (hc : parseUintBigint auth.chainId "chainId" = .ok cid)
    (hn : parseUintBigint auth.nonce "nonce" = .ok nce)
    (hy : parseUintBigint auth.yParity "yParity" = .ok yp)
    (hyp : yp = 0 ∨ yp = 1)
    (hr : normalizeHex32 auth.r "r" = .ok rN)
    (hs : normalizeHex32 auth.s "s" = .ok sN) :
    ∃ res, recoverAuthorityFromAuthorization K R G auth = .ok res := by
  rcases hres : recoverAuthorityFromAuthorization K R G auth with e | res
  · exfalso
    rcases recover_err_inversion K R G auth e hres with
      h | h | h | h | h | h
    · rw [ha] at h
      cases h.1
    · rw [(parseUint_ok_iff _ _ _).mp hc] at h
      cases h.1
    · rw [(parseUint_ok_iff _ _ _).mp hn] at h
      cases h.1
    · rcases h.1 with h1 | ⟨yp2, h1, h2, h3⟩
      · rw [(parseUint_ok_iff _ _ _).mp hy] at h1
        cases h1
      · rw [(parseUint_ok_iff _ _ _).mp hy] at h1
        injection h1 with h1
        omega
    · rw [normalizeHex32_eq_err _ _ h.1] at hr
      cases hr
    · rw [normalizeHex32_eq_err _ _ h.1] at hs
      cases hs
  · exact ⟨res, rfl⟩

end Auth

/-! ## Claim C1 -/

namespace Auth

/-- A concrete valid authorization: chainId 1, nonce 0, yParity 1. -/
def authC1ok : HypersyncAuthorization :=
  ⟨.bigint 1, "0xaaaaaaaaaaaaaaaaaaaaaaaaaaaaaaaaaaaaaaaa",
    .num (.int 0), .bigint 1, "0x01", "0xff"⟩

end Auth

open Auth Eip7702 in
/-- Claim C1: for every authorization tuple whose fields pass
validation, recoverAuthorityFromAuthorization returns the lower-cased
result of ECDSA recovery over digest = keccak256(0x05 || rlp([chainId,
delegateAddress, nonce])) with signature (r, s, yParity): the integers
are RLP-encoded as their minimal big-endian byte strings with 0 as the
empty byte string, the address contributes its 20 bytes as written in
the authorization, and the normalized r and s words carry exactly the
numeric values written in the authorization.  keccak256 and
recoverAddress are abstract; getAddress is assumed to preserve the byte
content of a valid address, since EIP-55 checksumming only changes
letter case. -/
theorem C1_authority_recovery
    (keccak256 : List Nat → List Nat)
    (recoverAddress : List Nat → Nat → Nat → Nat → String)
    (getAddress : String → String)
    (hga : ∀ a, isHexAddress a = true →
      hexStrBytes (getAddress a) = hexStrBytes a)
    (auth : HypersyncAuthorization) (res : String)
    (hok : recoverAuthorityFromAuthorization keccak256 recoverAddress
      getAddress auth = .ok res) :
    ∃ cid nce yp rN sN,
      parseUintBigint auth.chainId "chainId" = .ok cid ∧
      parseUintBigint auth.nonce "nonce" = .ok nce ∧
      parseUintBigint auth.yParity "yParity" = .ok yp ∧
      (yp = 0 ∨ yp = 1) ∧
      normalizeHex32 auth.r "r" = .ok rN ∧
      normalizeHex32 auth.s "s" = .ok sN ∧
      hexStrVal rN = hexStrVal (jsTrim auth.r) ∧
      hexStrVal sN = hexStrVal (jsTrim auth.s) ∧
      res = jsToLower (recoverAddress
        (keccak256 (specDigestPreimage cid.toNat auth.address nce.toNat))
        (hexStrVal rN) (hexStrVal sN) yp.toNat) := by
  obtain ⟨ha, cid, nce, yp, rN, sN, hc, hn, hy, hyp, hr, hs, hres⟩ :=
    recover_ok_inversion _ _ _ _ _ hok
  refine ⟨cid, nce, yp, rN, sN, hc, hn, hy, hyp, hr, hs,
    hexStrVal_normalizeHex32 _ _ _ hr,
    hexStrVal_normalizeHex32 _ _ _ hs, ?_⟩
  rw [hres, hga auth.address ha,
    chainIdRlp_eq_specMinimalBE cid
      (coerce_some_nonneg _ _ ((parseUint_ok_iff _ _ _).mp hc)),
    chainIdRlp_eq_specMinimalBE nce
      (coerce_some_nonneg _ _ ((parseUint_ok_iff _ _ _).mp hn))]
  rfl

open Auth Eip7702 in
/-- Claim C1, witness: the concrete authorization authC1ok run with
identity stand-ins for keccak256 and getAddress and a constant
recoverAddress, whose mixed-case output comes back lower-cased. -/
theorem C1_authority_recovery_witness :
    ∃ cid nce yp rN sN,
      parseUintBigint authC1ok.chainId "chainId" = .ok cid ∧
      parseUintBigint authC1ok.nonce "nonce" = .ok nce ∧
      parseUintBigint authC1ok.yParity "yParity" = .ok yp ∧
      (yp = 0 ∨ yp = 1) ∧
      normalizeHex32 authC1ok.r "r" = .ok rN ∧
      normalizeHex32 authC1ok.s "s" = .ok sN ∧
      hexStrVal rN = hexStrVal (jsTrim authC1ok.r) ∧
      hexStrVal sN = hexStrVal (jsTrim authC1ok.s) ∧
      ("0xab" : String) = jsToLower "0xAB" :=
  C1_authority_recovery (fun l => l) (fun _ _ _ _ => "0xAB")
    (fun a => a) (fun a _ => rfl) authC1ok "0xab" (by rfl)

/-! ## Claim C2 -/

namespace Auth

open Eip7702

theorem normalize_ok_isHex (val f rN : String)
    (h : normalizeHex32 val f = .ok rN) :
    isHex1to64 (jsTrim val) = true := by
  by_cases hh : isHex1to64 (jsTrim val) = true
  · exact hh
  · rw [normalizeHex32_eq_err _ _ (by simpa using hh)] at h
    cases h

/-- An authorization whose chainId is the octal string 0o7 and whose
other fields are valid. -/
def authC2octal : HypersyncAuthorization :=
  ⟨.str "0o7", "0xaaaaaaaaaaaaaaaaaaaaaaaaaaaaaaaaaaaaaaaa",
    .num (.int 0), .bigint 0, "0x01", "0xff"⟩

/-- An authorization whose nonce is the unparsable string abc and whose
other fields are valid. -/
def authC2bad : HypersyncAuthorization :=
  ⟨.bigint 1, "0xaaaaaaaaaaaaaaaaaaaaaaaaaaaaaaaaaaaaaaaa",
    .str "abc", .bigint 0, "0x01", "0xff"⟩

end Auth

open Auth Eip7702 in
/-- Claim C2, counterexample.  The claim says chainId, nonce and yParity
are accepted when given as a non-negative number, a decimal or 0x-hex
string, or a bigint, and that the function throws when such a field is
unparsable; the octal string 0o7 is neither a decimal nor a 0x-hex
string, yet JavaScript BigInt() parses it, so the function accepts it
as chainId 7 instead of throwing. -/
theorem C2_counterexample :
    (∃ res, recoverAuthorityFromAuthorization (fun l => l)
        (fun _ _ _ _ => "0xAB") (fun a => a) authC2octal = .ok res) ∧
    parseUintBigint authC2octal.chainId "chainId" = .ok 7 ∧
    specDecimalOrHexString (jsTrim "0o7") = false :=
  ⟨⟨"0xab", rfl⟩, rfl, rfl⟩

open Auth Eip7702 in
/-- Claim C2, amended: recoverAuthorityFromAuthorization succeeds
exactly when the delegate address is 0x plus 40 hex digits, chainId and
nonce coerce to non-negative integers (bigint, finite integral number,
or a trimmed string parsed by the JavaScript BigInt grammar - signed
decimal or unsigned 0x/0o/0b literal), yParity coerces to 0 or 1, and
the trimmed r and s match 0x plus 1 to 64 hex digits; every thrown
error names the offending field; and r/s normalization yields 0x plus
exactly 64 lower-case hex digits left-padded with zeros, preserving the
numeric value. -/
theorem C2_validation_and_errors
    (keccak256 : List Nat → List Nat)
    (recoverAddress : List Nat → Nat → Nat → Nat → String)
    (getAddress : String → String)
    (auth : HypersyncAuthorization) :
    ((∃ res, recoverAuthorityFromAuthorization keccak256 recoverAddress
        getAddress auth = .ok res) ↔
      (isHexAddress auth.address = true ∧
        (coerceUint auth.chainId).isSome = true ∧
        (coerceUint auth.nonce).isSome = true ∧
        (coerceUint auth.yParity = some 0 ∨
          coerceUint auth.yParity = some 1) ∧
        isHex1to64 (jsTrim auth.r) = true ∧
        isHex1to64 (jsTrim auth.s) = true)) ∧
    (∀ e, recoverAuthorityFromAuthorization keccak256 recoverAddress
        getAddress auth = .error e →
      ∃ fname fval,
        e = "Invalid " ++ fname ++ " in authorization: " ++ fval ∧
        fieldBad auth fname = true) ∧
    (∀ v rN, normalizeHex32 v "r" = .ok rN →
      rN.data.length = 66 ∧ jsStartsWith rN "0x" = true ∧
        (rN.data.drop 2).all (fun c => c ∈ hexLowerChars) = true ∧
        hexStrVal rN = hexStrVal (jsTrim v)) := by
  refine ⟨⟨?_, ?_⟩, ?_, ?_⟩
  · rintro ⟨res, hok⟩
    obtain ⟨ha, cid, nce, yp, rN, sN, hc, hn, hy, hyp, hr, hs, -⟩ :=
      recover_ok_inversion _ _ _ _ _ hok
    refine ⟨ha, ?_, ?_, ?_, normalize_ok_isHex _ _ _ hr,
      normalize_ok_isHex _ _ _ hs⟩
    · rw [(parseUint_ok_iff _ _ _).mp hc]
      rfl
    · rw [(parseUint_ok_iff _ _ _).mp hn]
      rfl
    · rcases hyp with h | h
      · exact Or.inl (by rw [(parseUint_ok_iff _ _ _).mp hy, h])
      · exact Or.inr (by rw [(parseUint_ok_iff _ _ _).mp hy, h])
  · rintro ⟨ha, hc, hn, hy, hr, hs⟩
    obtain ⟨cid, hc'⟩ := Option.isSome_iff_exists.mp hc
    obtain ⟨nce, hn'⟩ := Option.isSome_iff_exists.mp hn
    rcases hy with hy | hy
    · exact recover_ok_construction _ _ _ _ ha cid nce 0 _ _
        ((parseUint_ok_iff _ _ _).mpr hc')
        ((parseUint_ok_iff _ _ _).mpr hn')
        ((parseUint_ok_iff _ _ _).mpr hy) (Or.inl rfl)
        (normalizeHex32_eq_ok _ _ hr) (normalizeHex32_eq_ok _ _ hs)
    · exact recover_ok_construction _ _ _ _ ha cid nce 1 _ _
        ((parseUint_ok_iff _ _ _).mpr hc')
        ((parseUint_ok_iff _ _ _).mpr hn')
        ((parseUint_ok_iff _ _ _).mpr hy) (Or.inr rfl)
        (normalizeHex32_eq_ok _ _ hr) (normalizeHex32_eq_ok _ _ hs)
  · intro e he
    rcases recover_err_inversion _ _ _ _ _ he with
      h | h | h | h | h | h
    · refine ⟨"delegate address", auth.address, ?_, ?_⟩
      · rw [h.2]
        rfl
      · show (!isHexAddress auth.address) = true
        rw [h.1]
        rfl
    · refine ⟨"chainId", jsValueToString auth.chainId, ?_, ?_⟩
      · rw [h.2]
        rfl
      · show (coerceUint auth.chainId).isNone = true
        rw [h.1]
        rfl
    · refine ⟨"nonce", jsValueToString auth.nonce, ?_, ?_⟩
      · rw [h.2]
        rfl
      · show (coerceUint auth.nonce).isNone = true
        rw [h.1]
        rfl
    · refine ⟨"yParity", jsValueToString auth.yParity, ?_, ?_⟩
      · rw [h.2]
        rfl
      · show (!(coerceUint auth.yParity == some 0
            || coerceUint auth.yParity == some 1)) = true
        rcases h.1 with h1 | ⟨yp, h1, h2, h3⟩
        · rw [h1]
          rfl
        · rw [h1]
          simp [h2, h3]
    · refine ⟨"r", auth.r, ?_, ?_⟩
      · rw [h.2]
        rfl
      · show (!isHex1to64 (jsTrim auth.r)) = true
        rw [h.1]
        rfl
    · refine ⟨"s", auth.s, ?_, ?_⟩
      · rw [h.2]
        rfl
      · show (!isHex1to64 (jsTrim auth.s)) = true
        rw [h.1]
        rfl
  · intro v rN h
    have hh : isHex1to64 (jsTrim v) = true := normalize_ok_isHex v "r" rN h
    have hh' := hh
    simp only [isHex1to64, Bool.and_eq_true] at hh'
    have hlen : ((jsTrim v).data.drop 2).length ≤ 64 :=
      of_decide_eq_true hh'.1.2
    have hall : ((jsTrim v).data.drop 2).all
        (fun c => c ∈ hexAnyChars) = true := hh'.2
    rw [normalizeHex32_eq_ok _ _ hh] at h
    injection h with h
    subst h
    have hdata : ("0x" ++ String.mk (padStart64
        (((jsTrim v).data.drop 2).map Char.toLower))).data =
        '0' :: 'x' :: padStart64
          (((jsTrim v).data.drop 2).map Char.toLower) := rfl
    refine ⟨?_, ?_, ?_,
      hexStrVal_normalizeHex32 v "r" _ (normalizeHex32_eq_ok v "r" hh)⟩
    · rw [hdata]
      simp only [List.length_cons]
      rw [padStart64_length _ (by rw [List.length_map]; exact hlen)]
    · show (("0x" : String).data.isPrefixOf _) = true
      rw [hdata]
      exact List.isPrefixOf_iff_prefix.mpr ⟨_, rfl⟩
    · rw [hdata]
      show (padStart64 (((jsTrim v).data.drop 2).map Char.toLower)).all
        (fun c => c ∈ hexLowerChars) = true
      exact padStart64_all_lower _ hall

open Auth Eip7702 in
/-- Claim C2, witness: an authorization whose nonce is the unparsable
string abc makes the function throw a message naming the nonce field. -/
theorem C2_validation_and_errors_witness :
    ∃ fname fval,
      ("Invalid nonce in authorization: abc" : String) =
        "Invalid " ++ fname ++ " in authorization: " ++ fval ∧
      fieldBad authC2bad fname = true :=
  (C2_validation_and_errors (fun l => l) (fun _ _ _ _ => "0xAB")
    (fun a => a) authC2bad).2.1
    "Invalid nonce in authorization: abc" (by rfl)
